import Mathlib

/-!
Verification development for the per-locale URL redirect engine
(`shortCuts`, `transit`, `removeConflictingOldRedirects`,
`loadPairsFromFile`, `loadLocaleAndAdd`, `validateLocale`, `save`,
`validateFromURL` / `validateToURL`).

The JavaScript source is shallowly embedded: JS strings are `String`,
JS `Map` objects are association lists with JS insertion-order/overwrite
semantics (`jsSet` / `jsGet`), thrown exceptions are `Except String`,
and the file system / document locator / locale set — external
collaborators of the module — are explicit parameters.
-/

namespace Redirects

/-! ## Models of the JavaScript string primitives used by the source -/

/-- Model of JS `String.prototype.toLowerCase` (the URLs handled by the
module are ASCII; `Char.toLower` lowers exactly the ASCII range). -/
def toLowerCase (s : String) : String := ⟨s.data.map Char.toLower⟩

/-- Whether `needle` occurs at the head of `hay`. -/
def leadsWith : List Char → List Char → Bool
  | _, [] => true
  | [], _ :: _ => false
  | h :: hs, n :: ns => h = n && leadsWith hs ns

/-- Whether `needle` occurs anywhere in `hay` (naive substring search). -/
def containsSeq (needle : List Char) : List Char → Bool
  | [] => needle.isEmpty
  | h :: rest => leadsWith (h :: rest) needle || containsSeq needle rest

/-- Model of JS `String.prototype.includes(sub)`. -/
def includesSub (s sub : String) : Bool := containsSeq sub.data s.data

/-- Model of JS `String.prototype.startsWith("/")` (single-character case). -/
def startsWithChar (s : String) (c : Char) : Bool := s.data.head? == some c

/-- Characters JS `trim` removes: the ECMAScript WhiteSpace set (TAB, VT,
FF, SPACE, NBSP, ZWNBSP and the Unicode space separators U+1680,
U+2000–U+200A, U+202F, U+205F, U+3000) together with the LineTerminator set
(LF, CR, LS, PS). -/
def isJsWhitespace (c : Char) : Bool :=
  c.toNat = 0x9 || c.toNat = 0xA || c.toNat = 0xB || c.toNat = 0xC || c.toNat = 0xD ||
  c.toNat = 0x20 || c.toNat = 0xA0 || c.toNat = 0x1680 ||
  (decide (0x2000 ≤ c.toNat) && decide (c.toNat ≤ 0x200A)) ||
  c.toNat = 0x2028 || c.toNat = 0x2029 || c.toNat = 0x202F || c.toNat = 0x205F ||
  c.toNat = 0x3000 || c.toNat = 0xFEFF

/-- Model of JS `String.prototype.trim`. -/
def trimString (s : String) : String :=
  ⟨((s.data.dropWhile isJsWhitespace).reverse.dropWhile isJsWhitespace).reverse⟩

/-- Split a character list at every occurrence of `c`, keeping empty pieces,
as JS `split("\n")` / `split("/")` do. -/
def splitChar (c : Char) : List Char → List (List Char)
  | [] => [[]]
  | x :: rest =>
    if x = c then [] :: splitChar c rest
    else
      match splitChar c rest with
      | [] => [[x]]
      | h :: t => (x :: h) :: t

/-- Model of JS `String.prototype.split(sep)` for a one-character separator. -/
def splitOnChar (s : String) (c : Char) : List String :=
  (splitChar c s.data).map (fun l => ⟨l⟩)

/-- Worker for `splitTabRuns`; the flag records whether the previous
character was a tab (so that a run collapses to one separator). -/
def splitTabsGo : List Char → Bool → List (List Char)
  | [], _ => [[]]
  | x :: rest, afterTab =>
    if x = '\t' then
      if afterTab then splitTabsGo rest true
      else [] :: splitTabsGo rest true
    else
      match splitTabsGo rest false with
      | [] => [[x]]
      | h :: t => (x :: h) :: t

/-- Split at every maximal run of tab characters, as JS `split(/\t+/)` does:
interior runs collapse to a single separator, while a leading or trailing
run still contributes an empty piece. -/
def splitTabRuns (l : List Char) : List (List Char) := splitTabsGo l false

/-- String-level wrapper of `splitTabRuns`. -/
def splitTabs (s : String) : List String := (splitTabRuns s.data).map (fun l => ⟨l⟩)

/-! ## JS `Map` model

A JS `Map` is an association list whose keys are unique; `set` replaces the
value of an existing key in place and otherwise appends, `get` returns the
(unique) binding.  `jsMapOfList` models `new Map(entries)`: later entries
overwrite the values of earlier ones. -/

instance exceptDecEq {ε α : Type} [DecidableEq ε] [DecidableEq α] :
    DecidableEq (Except ε α) := fun x y =>
  match x, y with
  | .ok a, .ok b =>
    if h : a = b then isTrue (by rw [h]) else isFalse (by intro hh; cases hh; exact h rfl)
  | .error a, .error b =>
    if h : a = b then isTrue (by rw [h]) else isFalse (by intro hh; cases hh; exact h rfl)
  | .ok _, .error _ => isFalse (by intro hh; cases hh)
  | .error _, .ok _ => isFalse (by intro hh; cases hh)

abbrev JsMap := List (String × String)

/-- Model of JS `Map.prototype.get` (first binding of the key). -/
def jsGet : JsMap → String → Option String
  | [], _ => none
  | p :: rest, k => if p.1 = k then some p.2 else jsGet rest k

/-- Model of JS `Map.prototype.set`: replace in place or append. -/
def jsSet : JsMap → String → String → JsMap
  | [], k, v => [(k, v)]
  | p :: rest, k, v => if p.1 = k then (k, v) :: rest else p :: jsSet rest k v

/-- Model of `new Map(entries)`. -/
def jsMapOfList (l : List (String × String)) : JsMap :=
  l.foldl (fun m p => jsSet m p.1 p.2) []

/-- Value of the last entry of `l` carrying key `k` (the value `new Map(l)`
retains for `k`). -/
def lastVal : List (String × String) → String → Option String
  | [], _ => none
  | p :: rest, k =>
    match lastVal rest k with
    | some v => some v
    | none => if p.1 = k then some p.2 else none

/-- Keys of an association list. -/
def keysOf (m : JsMap) : List String := m.map (fun p => p.1)

/-! ## The graph resolver: `transit` and `shortCuts` -/

/-- Outcome of one `transit` walk: either a cycle was detected (in the
source, the walk returns the empty-array sentinel after logging or throwing
`msg`), or the walk reached a node with no outgoing edge, returning the
visited nodes and that ultimate target. -/
inductive TransitRes where
  | cycle (msg : String)
  | done (froms : List String) (target : String)
deriving DecidableEq, Repr

/-- Model of the recursive `transit` closure of `shortCuts`.  The source
guards the step with JS truthiness, `if (next)`: the walk ends (returning
`[froms, s]`) both when `s` has no outgoing edge (`next` is `undefined`)
and when its recorded target is the empty string (falsy), without pushing
`s`.  The recursion terminates because every pushed node is a distinct key
of `dg`; the embedding makes this explicit with a fuel argument (`none` =
fuel ran out, which `transit_isSome` below proves unreachable for the fuel
`shortCuts` supplies). -/
def transit (dg : JsMap) : Nat → String → List String → Option TransitRes
  | 0, _, _ => none
  | fuel + 1, s, froms =>
    match jsGet dg s with
    | none => some (.done froms s)
    | some next =>
      if next = "" then some (.done froms s)
      else
        let froms2 := froms ++ [s]
        if next ∈ froms2 then
          some (.cycle ("redirect cycle [" ++ String.intercalate ", " froms2 ++ "] → " ++ next))
        else
          transit dg fuel next froms2

/-- Strict lexicographic comparison of character lists, as JS `<` compares
strings (code-unit by code-unit). -/
def ltChars : List Char → List Char → Bool
  | [], [] => false
  | [], _ :: _ => true
  | _ :: _, [] => false
  | a :: as, b :: bs => if a = b then ltChars as bs else decide (a < b)

/-- JS string `<` on the embedded strings. -/
def ltString (a b : String) : Prop := ltChars a.data b.data = true

/-- JS string `≤` (the comparator treats equal strings as ties). -/
def leString (a b : String) : Prop := ltString a b ∨ a = b

instance : DecidableRel ltString := fun a b => by
  unfold ltString; infer_instance

instance : DecidableRel leString := fun a b => by
  unfold leString; infer_instance

/-- The comparator `sortTuples` of the source, as the (total) ≤ relation it
sorts by: ascending lexicographic order on `(from, to)`. -/
def sortTuples (p q : String × String) : Prop :=
  ltString p.1 q.1 ∨ (p.1 = q.1 ∧ leString p.2 q.2)

instance : DecidableRel sortTuples := fun p q => by
  unfold sortTuples; infer_instance

/-- The casing map of `shortCuts`: built from all `from` entries followed by
all `to` entries, later entries overwriting earlier ones. -/
def casingOf (pairs : List (String × String)) : JsMap :=
  jsMapOfList (pairs.map (fun p => (toLowerCase p.1, p.1)) ++
    pairs.map (fun p => (toLowerCase p.2, p.2)))

/-- The lowercased pair list of `shortCuts`. -/
def lowerCasePairsOf (pairs : List (String × String)) : List (String × String) :=
  pairs.map (fun p => (toLowerCase p.1, toLowerCase p.2))

/-- Model of `casing.get(k)` at the restoration step.  The lookup provably
never misses for the keys `shortCuts` queries (every transitive-DAG node is
a lowercased endpoint of some input pair), so the `getD` fallback is inert;
it stands in for JS `undefined`. -/
def casingGet (casing : JsMap) (k : String) : String := (jsGet casing k).getD k

/-- The `for (const [from] of lowerCasePairs)` loop of `shortCuts`: walk
from every source and record a direct edge from every visited node to the
walk's ultimate target; a detected cycle either aborts (`throws`) or
contributes nothing. -/
def buildDag (dg : JsMap) (fuel : Nat) (throws : Bool) :
    List String → JsMap → Except String JsMap
  | [], dag => .ok dag
  | s :: rest, dag =>
    match transit dg fuel s [] with
    | some (.done froms target) =>
        buildDag dg fuel throws rest (froms.foldl (fun m f => jsSet m f target) dag)
    | some (.cycle msg) =>
        if throws then .error msg else buildDag dg fuel throws rest dag
    | none => buildDag dg fuel throws rest dag

/-- The directed graph `dg` of `shortCuts`: one outgoing edge per
(lowercased) source, later pairs silently overwriting earlier ones. -/
def dgOf (pairs : List (String × String)) : JsMap := jsMapOfList (lowerCasePairsOf pairs)

/-- Fuel supplied to the embedded `transit`; `transit_isSome` below shows it
is enough for every walk `shortCuts` performs. -/
def fuelOf (pairs : List (String × String)) : Nat := pairs.length + 1

/-- The walk starting points: the source of every lowercased pair, in order. -/
def srcsOf (pairs : List (String × String)) : List String :=
  (lowerCasePairsOf pairs).map (fun p => p.1)

/-- Restoration of original casing on both endpoints of a produced edge. -/
def restorePair (pairs : List (String × String)) (p : String × String) : String × String :=
  (casingGet (casingOf pairs) p.1, casingGet (casingOf pairs) p.2)

/-- Model of `shortCuts(pairs, throws)`. -/
def shortCuts (pairs : List (String × String)) (throws : Bool) :
    Except String (List (String × String)) := do
  let transitiveDag ← buildDag (dgOf pairs) (fuelOf pairs) throws (srcsOf pairs) []
  let mappedPairs := transitiveDag.map (restorePair pairs)
  return List.insertionSort sortTuples mappedPairs

/-- Invariant maintained over the transitive-DAG accumulator: keys are
unique and every recorded edge is the outcome of the (deterministic) walk
from its own source. -/
def DagInv (dg : JsMap) (fuel : Nat) (dag : JsMap) : Prop :=
  (keysOf dag).Nodup ∧
  ∀ f t, jsGet dag f = some t →
    ∃ fs, transit dg fuel f [] = some (.done fs t) ∧ f ∈ fs


/-- Repeated application of the single-step edge relation of `dg`, used to
state which nodes lie on a cycle. -/
def followEdges (dg : JsMap) : Nat → String → String
  | 0, s => s
  | n + 1, s =>
    match jsGet dg s with
    | none => s
    | some next => followEdges dg n next


/-- Casing map as the claim describes it: the first-seen original casing
among all occurrences of the URL in either role, scanning pairs in order and
within a pair the from before the to.  (Claim-side definition, used to refute
the claim against the embedded source.) -/
def firstSeenCasing : List (String × String) → String → Option String
  | [], _ => none
  | p :: rest, k =>
    if toLowerCase p.1 = k then some p.1
    else if toLowerCase p.2 = k then some p.2
    else firstSeenCasing rest k


/-- Casing map as the source actually builds it: the last-seen casing, with
all to-role occurrences taking precedence over all from-role occurrences. -/
def lastSeenToPrecedence (pairs : List (String × String)) (k : String) : Option String :=
  match lastVal (pairs.map (fun p => (toLowerCase p.2, p.2))) k with
  | some v => some v
  | none => lastVal (pairs.map (fun p => (toLowerCase p.1, p.1))) k


/-- Model of `removeConflictingOldRedirects(oldPairs, updatePairs)`: build the
set of lowercased update targets, then drop every old pair whose lowercased
source is in that set (logging is a side effect only). -/
def removeConflictingOldRedirects (oldPairs updatePairs : List (String × String)) :
    List (String × String) :=
  if oldPairs.length = 0 then oldPairs
  else
    let newTargets := updatePairs.map (fun p => toLowerCase p.2)
    oldPairs.filter (fun p => !(newTargets.contains (toLowerCase p.1)))


/-! ## Persistence: save and the parsing pipeline of loadPairsFromFile -/

/-- Content written by `save`: the header line, then one
`from<TAB>to` line per pair. -/
def saveContent (pairs : List (String × String)) : String :=
  "# FROM-URL\tTO-URL\n" ++ String.join (pairs.map (fun p => p.1 ++ "\t" ++ p.2 ++ "\n"))

/-- The content-processing pipeline of `loadPairsFromFile`: trim, split into
lines, discard the header, split each trimmed line on runs of tabs. -/
def parsePairs (content : String) : List (List String) :=
  ((splitOnChar (trimString content) '\n').drop 1).map
    (fun line => splitTabs (trimString line))

/-- The character sequence of one saved line. -/
def lineData (p : String × String) : List Char := p.1.data ++ '\t' :: p.2.data

/-- A URL is round-trip safe when it is nonempty, holds no newline or tab,
and neither starts nor ends with whitespace. -/
def noEdgeWs (l : List Char) : Bool :=
  (match l.head? with
    | none => true
    | some c => !(isJsWhitespace c)) &&
  (match l.getLast? with
    | none => true
    | some c => !(isJsWhitespace c))

def GoodUrl (s : String) : Prop :=
  s.data ≠ [] ∧ '\n' ∉ s.data ∧ '\t' ∉ s.data ∧ noEdgeWs s.data = true

instance (s : String) : Decidable (GoodUrl s) := by
  unfold GoodUrl
  infer_instance


/-! ## Validators and loaders

The fixed locale set (`VALID_LOCALES` values), the document locator behind
`resolveDocumentPath`, the resolution table behind `resolve`, and the
percent-decoders of `slug-utils` are external collaborators of the module;
they are passed as explicit parameters (`validLocales`, `locator`,
`resolveFn`, `decodeP`, `decodeU`). -/

/-- Model of `checkURLInvalidSymbols`: the loop over
`FORBIDDEN_URL_SYMBOLS = ["\n", "\t"]` unrolled in order. -/
def checkURLInvalidSymbols (url : String) : Except String Unit :=
  if url.data.contains '\n' then .error "URL contains invalid character"
  else if url.data.contains '\t' then .error "URL contains invalid character"
  else .ok ()

/-- Model of `isVanityRedirectURL`. -/
def isVanityRedirectURL (validLocales : List String) (url : String) : Bool :=
  (validLocales.map (fun l => "/" ++ l ++ "/")).contains url

/-- Model of `resolveDocumentPath`: vanity URLs resolve to themselves; the
slug-to-folder, archive and file-system logic is the abstract `locator`. -/
def resolveDocumentPath (validLocales : List String) (locator : String → Option String)
    (url : String) : Option String :=
  if isVanityRedirectURL validLocales url then some url else locator url

/-- Model of `validateURLLocale`: JS `undefined` fields of the split are
modelled as the empty string (both fail the shape test). -/
def validateURLLocale (validLocales : List String) (url : String) : Except String Unit :=
  let parts := splitOnChar url '/'
  let nothing := (parts[0]?).getD ""
  let locale := (parts[1]?).getD ""
  let docs := (parts[2]?).getD ""
  if nothing ≠ "" ∨ locale = "" ∨ docs ≠ "docs" then
    .error ("The URL is expected to start with /locale/docs/: " ++ url)
  else if ¬ validLocales.contains locale then
    .error ("locale not in the valid set: " ++ url)
  else .ok ()

/-- Model of `validateFromURL`. -/
def validateFromURL (validLocales : List String) (locator : String → Option String)
    (resolveFn : String → String) (url : String) (checkResolve : Bool) :
    Except String Unit :=
  if !(startsWithChar url '/') then
    .error ("From-URL must start with a / was " ++ url)
  else if !(includesSub url "/docs/") then
    .error ("From-URL must contain /docs/ was " ++ url)
  else if !(validLocales.contains (((splitOnChar url '/')[1]?).getD "")) then
    .error ("The locale prefix is not valid or wrong case was " ++ url)
  else do
    checkURLInvalidSymbols url
    validateURLLocale validLocales url
    match resolveDocumentPath validLocales locator url with
    | some p => .error ("From-URL resolves to a file (" ++ p ++ ")")
    | none =>
      if checkResolve then
        if resolveFn url ≠ url then
          .error (url ++ " is already matched as a redirect")
        else .ok ()
      else .ok ()

/-- Model of `validateToURL`.  The WHATWG URL constructor invoked on the
external branch (`new URL(url)`) is a platform builtin, not code of this
module; like the decoders it is passed as the explicit parameter
`parseURL`: `none` models the constructor throwing `TypeError` on a
malformed URL, `some p` models success with normalized `protocol` `p`
(lowercased scheme plus the trailing colon). -/
def validateToURL (validLocales : List String) (locator parseURL : String → Option String)
    (resolveFn : String → String) (url : String) (checkResolve checkPath : Bool) :
    Except String Unit :=
  if isVanityRedirectURL validLocales url then .ok ()
  else if includesSub url "://" then
    match parseURL url with
    | none => .error ("Invalid URL: " ++ url)
    | some protocol =>
      if protocol ≠ "https:" then .error "We only redirect to https://"
      else .ok ()
  else if startsWithChar url '/' then do
    checkURLInvalidSymbols url
    validateURLLocale validLocales url
    (if checkResolve then
      (if resolveFn url ≠ url then
        .error (url ++ " is already matched as a redirect")
      else .ok ())
     else .ok ())
    (if checkPath then
      (match resolveDocumentPath validLocales locator url with
       | none => .error ("To-URL has to resolve to a file (" ++ url ++ ")")
       | some _ => .ok ())
     else .ok ())
  else .error ("To-URL has to be external or start with / (" ++ url ++ ")")

/-- Model of `validatePairs`: the loop stops at the first failure. -/
def validatePairs (validLocales : List String) (locator parseURL : String → Option String)
    (resolveFn : String → String) :
    List (String × String) → Bool → Except String Unit
  | [], _ => .ok ()
  | p :: rest, checkExists => do
      validateFromURL validLocales locator resolveFn p.1 false
      validateToURL validLocales locator parseURL resolveFn p.2 false checkExists
      validatePairs validLocales locator parseURL resolveFn rest checkExists

/-- Model of `decodePair` with the decoders abstract. -/
def decodePair (decodeP decodeU : String → String) (p : String × String) :
    String × String :=
  (decodeP p.1, if startsWithChar p.2 '/' then decodeP p.2 else decodeU p.2)

/-- Model of `errorOnEncoded`. -/
def errorOnEncoded (decodeP decodeU : String → String) :
    List (String × String) → Except String Unit
  | [] => .ok ()
  | p :: rest =>
    let d := decodePair decodeP decodeU p
    if d.1 ≠ p.1 then .error ("From URL must be decoded: " ++ p.1)
    else if d.2 ≠ p.2 then .error ("To URL must be decoded: " ++ p.2)
    else errorOnEncoded decodeP decodeU rest

/-- The loop of `errorOnDuplicated`, with the `seen` set explicit. -/
def errorOnDuplicatedFrom (seen : List String) :
    List (String × String) → Except String Unit
  | [] => .ok ()
  | p :: rest =>
    let fromLower := toLowerCase p.1
    if seen.contains fromLower then .error ("Duplicated redirect: " ++ fromLower)
    else errorOnDuplicatedFrom (fromLower :: seen) rest

/-- Model of `errorOnDuplicated`. -/
def errorOnDuplicated (pairs : List (String × String)) : Except String Unit :=
  errorOnDuplicatedFrom [] pairs

/-- Destructuring `[from, to] = lineFields`: JS `undefined` for a missing
field is modelled as the empty string (both fail every later validation,
with a different message). -/
def linePair (l : List String) : String × String := (l.headD "", (l.drop 1).headD "")

/-- Model of `loadPairsFromFile` on the file's content. -/
def loadPairsFromFile (validLocales : List String) (locator parseURL : String → Option String)
    (resolveFn decodeP decodeU : String → String) (content : String) (strict : Bool) :
    Except String (List (String × String)) := do
  let pairs := (parsePairs content).map linePair
  if strict then do
    errorOnEncoded decodeP decodeU pairs
    errorOnDuplicated pairs
  validatePairs validLocales locator parseURL resolveFn pairs strict
  return pairs

/-- Model of `removeOrphanedRedirects`. -/
def removeOrphanedRedirects (validLocales : List String)
    (locator : String → Option String) (pairs : List (String × String)) :
    List (String × String) :=
  pairs.filter (fun p =>
    !((resolveDocumentPath validLocales locator p.1).isSome) &&
    !(startsWithChar p.2 '/' && (resolveDocumentPath validLocales locator p.2).isNone))

/-- Model of `loadLocaleAndAdd`.  The content root selection and the
`CONTENT_TRANSLATED_ROOT` guard concern only which file is read and are
absorbed into `storedContent` (`none` = no redirects file).  The source
computes `changed: simplifiedPairs == pairs`, a JS reference comparison of
two arrays; `simplifiedPairs` is freshly allocated (by `shortCuts` or by
`filter`), never the same object as `pairs`, so the comparison is always
false — the embedding makes that explicit. -/
def loadLocaleAndAdd (validLocales : List String) (locator parseURL : String → Option String)
    (resolveFn decodeP decodeU : String → String) (storedContent : Option String)
    (updatePairs : List (String × String)) (fix : Bool) :
    Except String (List (String × String) × Bool) := do
  errorOnEncoded decodeP decodeU updatePairs
  errorOnDuplicated updatePairs
  validatePairs validLocales locator parseURL resolveFn updatePairs true
  let pairs ← match storedContent with
    | none => pure []
    | some content =>
        loadPairsFromFile validLocales locator parseURL resolveFn decodeP decodeU
          content (!fix)
  let cleanPairs := removeConflictingOldRedirects pairs updatePairs ++ updatePairs
  let simplifiedPairs ← shortCuts cleanPairs false
  let simplifiedPairs2 :=
    if fix then removeOrphanedRedirects validLocales locator simplifiedPairs
    else simplifiedPairs
  validatePairs validLocales locator parseURL resolveFn simplifiedPairs2 true
  return (simplifiedPairs2, false)

/-- Model of `validateLocale`. -/
def validateLocale (validLocales : List String) (locator parseURL : String → Option String)
    (resolveFn decodeP decodeU : String → String) (storedContent : Option String)
    (strict : Bool) : Except String Unit := do
  let res ← loadLocaleAndAdd validLocales locator parseURL resolveFn decodeP decodeU
    storedContent [] strict
  if res.2 then .error "_redirects.txt for locale is flawed"
  else .ok ()


/-! ## String-order lemmas -/

theorem ltChars_irrefl (l : List Char) : ltChars l l = false := by
  induction l with
  | nil => rfl
  | cons a as ih => simp [ltChars, ih]

theorem ltChars_trans {a b c : List Char} :
    ltChars a b = true → ltChars b c = true → ltChars a c = true := by
  induction a generalizing b c with
  | nil =>
    intro h1 h2
    cases b with
    | nil => exact absurd h1 (by simp [ltChars])
    | cons y ys =>
      cases c with
      | nil => exact absurd h2 (by simp [ltChars])
      | cons z zs => rfl
  | cons x xs ih =>
    intro h1 h2
    cases b with
    | nil => exact absurd h1 (by simp [ltChars])
    | cons y ys =>
      cases c with
      | nil => exact absurd h2 (by simp [ltChars])
      | cons z zs =>
        simp only [ltChars] at h1 h2 ⊢
        by_cases hxy : x = y
        · subst hxy
          simp only [if_pos rfl] at h1
          by_cases hyz : x = z
          · subst hyz
            simp only [if_pos rfl] at h2 ⊢
            exact ih h1 h2
          · simp only [if_neg hyz] at h2 ⊢
            exact h2
        · simp only [if_neg hxy] at h1
          by_cases hyz : y = z
          · subst hyz
            simp only [if_neg hxy]
            exact h1
          · simp only [if_neg hyz] at h2
            have hxz : x < z := lt_trans (of_decide_eq_true h1) (of_decide_eq_true h2)
            have : x ≠ z := ne_of_lt hxz
            simp [if_neg this, hxz]

theorem ltChars_connex {a b : List Char} :
    ltChars a b = false → ltChars b a = false → a = b := by
  induction a generalizing b with
  | nil =>
    intro h1 _
    cases b with
    | nil => rfl
    | cons y ys => exact absurd h1 (by simp [ltChars])
  | cons x xs ih =>
    intro h1 h2
    cases b with
    | nil => exact absurd h2 (by simp [ltChars])
    | cons y ys =>
      simp only [ltChars] at h1 h2
      by_cases hxy : x = y
      · subst hxy
        simp only [if_pos rfl] at h1 h2
        rw [ih h1 h2]
      · simp only [if_neg hxy] at h1
        simp only [if_neg (Ne.symm hxy)] at h2
        rcases lt_or_gt_of_ne hxy with h | h
        · exact absurd (decide_eq_true h) (by simp [h1])
        · exact absurd (decide_eq_true h) (by simp [h2])

theorem ltChars_asymm {a b : List Char} (h : ltChars a b = true) : ltChars b a = false := by
  by_contra hc
  have hba : ltChars b a = true := by
    cases hv : ltChars b a with
    | false => exact absurd hv hc
    | true => rfl
  have := ltChars_trans h hba
  rw [ltChars_irrefl] at this
  exact Bool.false_ne_true this

theorem ltString_irrefl (a : String) : ¬ ltString a a := by
  intro h
  rw [ltString, ltChars_irrefl] at h
  exact Bool.false_ne_true h

theorem ltString_trans {a b c : String} : ltString a b → ltString b c → ltString a c :=
  fun h1 h2 => ltChars_trans h1 h2

theorem ltString_total (a b : String) : ltString a b ∨ a = b ∨ ltString b a := by
  cases h1 : ltChars a.data b.data with
  | true => exact Or.inl h1
  | false =>
    cases h2 : ltChars b.data a.data with
    | true => exact Or.inr (Or.inr h2)
    | false =>
      refine Or.inr (Or.inl ?_)
      cases a; cases b
      exact congrArg String.mk (ltChars_connex h1 h2)

theorem leString_trans {a b c : String} : leString a b → leString b c → leString a c := by
  intro h1 h2
  rcases h1 with h1 | rfl
  · rcases h2 with h2 | rfl
    · exact Or.inl (ltString_trans h1 h2)
    · exact Or.inl h1
  · exact h2

theorem leString_antisymm {a b : String} : leString a b → leString b a → a = b := by
  intro h1 h2
  rcases h1 with h1 | rfl
  · rcases h2 with h2 | rfl
    · exact absurd (ltString_trans h1 h2) (ltString_irrefl a)
    · rfl
  · rfl

theorem leString_total (a b : String) : leString a b ∨ leString b a := by
  rcases ltString_total a b with h | h | h
  · exact Or.inl (Or.inl h)
  · exact Or.inl (Or.inr h)
  · exact Or.inr (Or.inl h)


instance : IsTotal (String × String) sortTuples := by
  constructor
  intro p q
  rcases ltString_total p.1 q.1 with h | h | h
  · exact Or.inl (Or.inl h)
  · rcases leString_total p.2 q.2 with h2 | h2
    · exact Or.inl (Or.inr ⟨h, h2⟩)
    · exact Or.inr (Or.inr ⟨h.symm, h2⟩)
  · exact Or.inr (Or.inl h)

instance : IsTrans (String × String) sortTuples := by
  constructor
  intro p q r hpq hqr
  rcases hpq with h1 | ⟨e1, l1⟩
  · rcases hqr with h2 | ⟨e2, l2⟩
    · exact Or.inl (ltString_trans h1 h2)
    · exact Or.inl (e2 ▸ h1)
  · rcases hqr with h2 | ⟨e2, l2⟩
    · exact Or.inl (e1 ▸ h2)
    · exact Or.inr ⟨e1.trans e2, leString_trans l1 l2⟩

instance : IsAntisymm (String × String) sortTuples := by
  constructor
  intro p q hpq hqp
  rcases hpq with h1 | ⟨e1, l1⟩
  · rcases hqp with h2 | ⟨e2, l2⟩
    · exact absurd (ltString_trans h1 h2) (ltString_irrefl _)
    · exact absurd h1 (e2 ▸ ltString_irrefl _)
  · rcases hqp with h2 | ⟨e2, l2⟩
    · exact absurd h2 (e1 ▸ ltString_irrefl _)
    · exact Prod.ext e1 (leString_antisymm l1 l2)


/-! ## Association-list (JS `Map`) lemmas -/

theorem jsGet_jsSet (m : JsMap) (k v k2 : String) :
    jsGet (jsSet m k v) k2 = if k = k2 then some v else jsGet m k2 := by
  induction m with
  | nil =>
    simp only [jsSet, jsGet]
  | cons p rest ih =>
    by_cases hpk : p.1 = k
    · simp only [jsSet, if_pos hpk, jsGet]
      by_cases hk2 : k = k2
      · simp [hk2]
      · have : p.1 ≠ k2 := by rw [hpk]; exact hk2
        simp [hk2, this, jsGet]
    · simp only [jsSet, if_neg hpk, jsGet]
      by_cases hp2 : p.1 = k2
      · have : k ≠ k2 := by intro h; exact hpk (h ▸ hp2.symm ▸ hp2)
        rw [hp2] at hpk
        simp [hp2, Ne.symm hpk]
      · simp [hp2, ih]

theorem mem_keysOf_jsSet (m : JsMap) (k v k2 : String) :
    k2 ∈ keysOf (jsSet m k v) ↔ k2 ∈ keysOf m ∨ k2 = k := by
  induction m with
  | nil => simp [jsSet, keysOf]
  | cons p rest ih =>
    by_cases hpk : p.1 = k
    · simp only [jsSet, if_pos hpk, keysOf, List.map_cons, List.mem_cons]
      constructor
      · rintro (h | h)
        · exact Or.inr h
        · exact Or.inl (Or.inr h)
      · rintro ((h | h) | h)
        · exact Or.inl (hpk ▸ h)
        · exact Or.inr h
        · exact Or.inl h
    · simp only [jsSet, if_neg hpk, keysOf, List.map_cons, List.mem_cons] at *
      rw [ih]
      tauto

theorem nodup_keysOf_jsSet (m : JsMap) (k v : String) (h : (keysOf m).Nodup) :
    (keysOf (jsSet m k v)).Nodup := by
  induction m with
  | nil => simp [jsSet, keysOf]
  | cons p rest ih =>
    simp only [keysOf, List.map_cons, List.nodup_cons] at h
    by_cases hpk : p.1 = k
    · simp only [jsSet, if_pos hpk, keysOf, List.map_cons, List.nodup_cons]
      exact ⟨hpk ▸ h.1, h.2⟩
    · simp only [jsSet, if_neg hpk, keysOf, List.map_cons, List.nodup_cons]
      refine ⟨?_, ih h.2⟩
      intro hc
      rw [show (jsSet rest k v).map (fun p => p.1) = keysOf (jsSet rest k v) from rfl] at hc
      rcases (mem_keysOf_jsSet rest k v p.1).1 hc with h2 | h2
      · exact h.1 h2
      · exact hpk h2

theorem jsGet_eq_none_iff (m : JsMap) (k : String) :
    jsGet m k = none ↔ k ∉ keysOf m := by
  induction m with
  | nil => simp [jsGet, keysOf]
  | cons p rest ih =>
    by_cases hpk : p.1 = k
    · simp [jsGet, hpk, keysOf]
    · simp [jsGet, hpk, keysOf, ih, Ne.symm hpk]

theorem mem_keysOf_of_jsGet {m : JsMap} {k v : String} (h : jsGet m k = some v) :
    k ∈ keysOf m := by
  by_contra hc
  rw [← jsGet_eq_none_iff] at hc
  rw [h] at hc
  cases hc

theorem mem_keysOf_iff_jsGet (m : JsMap) (k : String) :
    k ∈ keysOf m ↔ jsGet m k ≠ none := by
  constructor
  · intro h hc
    rw [jsGet_eq_none_iff] at hc
    exact hc h
  · intro h
    by_contra hc
    exact h ((jsGet_eq_none_iff m k).2 hc)

theorem mem_of_jsGet {m : JsMap} {k v : String} (h : jsGet m k = some v) : (k, v) ∈ m := by
  induction m with
  | nil => cases h
  | cons p rest ih =>
    by_cases hpk : p.1 = k
    · simp only [jsGet, if_pos hpk] at h
      cases h
      have hp : p = (k, p.2) := Prod.ext hpk rfl
      rw [← hp]
      exact List.mem_cons_self p rest
    · simp only [jsGet, if_neg hpk] at h
      exact List.mem_cons_of_mem _ (ih h)

theorem jsGet_of_mem_nodup {m : JsMap} {k v : String}
    (hn : (keysOf m).Nodup) (h : (k, v) ∈ m) : jsGet m k = some v := by
  induction m with
  | nil => cases h
  | cons p rest ih =>
    simp only [keysOf, List.map_cons, List.nodup_cons] at hn
    rcases List.mem_cons.1 h with h1 | h1
    · rw [← h1]
      simp [jsGet]
    · have hpk : p.1 ≠ k := by
        intro hc
        exact hn.1 (hc ▸ (List.mem_map.2 ⟨(k, v), h1, rfl⟩))
      simp only [jsGet, if_neg hpk]
      exact ih hn.2 h1

theorem lastVal_mem {l : List (String × String)} {k v : String}
    (h : lastVal l k = some v) : (k, v) ∈ l := by
  induction l with
  | nil => cases h
  | cons p rest ih =>
    simp only [lastVal] at h
    cases hrest : lastVal rest k with
    | some w =>
      rw [hrest] at h
      cases h
      exact List.mem_cons_of_mem _ (ih hrest)
    | none =>
      rw [hrest] at h
      by_cases hpk : p.1 = k
      · rw [if_pos hpk] at h
        cases h
        have hp : p = (k, p.2) := Prod.ext hpk rfl
        rw [← hp]
        exact List.mem_cons_self p rest
      · rw [if_neg hpk] at h
        cases h

theorem lastVal_eq_none_iff (l : List (String × String)) (k : String) :
    lastVal l k = none ↔ k ∉ l.map (fun p => p.1) := by
  induction l with
  | nil => simp [lastVal]
  | cons p rest ih =>
    simp only [lastVal, List.map_cons, List.mem_cons]
    cases hrest : lastVal rest k with
    | some w =>
      simp only []
      constructor
      · intro h; cases h
      · intro h
        exact absurd (hrest ▸ (ih.2 (fun hc => h (Or.inr hc)))) (by simp)
    | none =>
      by_cases hpk : p.1 = k
      · simp [if_pos hpk, hpk]
      · simp only [if_neg hpk]
        rw [ih] at hrest
        simp [hrest, Ne.symm hpk]

theorem lastVal_append (a b : List (String × String)) (k : String) :
    lastVal (a ++ b) k =
      match lastVal b k with
      | some v => some v
      | none => lastVal a k := by
  induction a with
  | nil =>
    simp only [List.nil_append]
    cases lastVal b k <;> simp [lastVal]
  | cons p rest ih =>
    have hstep : lastVal ((p :: rest) ++ b) k =
        match lastVal (rest ++ b) k with
        | some v => some v
        | none => if p.1 = k then some p.2 else none := rfl
    rw [hstep, ih]
    cases hb : lastVal b k <;> cases hr : lastVal rest k <;> simp [lastVal, hb, hr]

theorem jsGet_foldl_jsSet (l : List (String × String)) (m0 : JsMap) (k : String) :
    jsGet (l.foldl (fun m p => jsSet m p.1 p.2) m0) k =
      match lastVal l k with
      | some v => some v
      | none => jsGet m0 k := by
  induction l generalizing m0 with
  | nil => simp [lastVal]
  | cons p rest ih =>
    simp only [List.foldl_cons, lastVal, ih, jsGet_jsSet]
    cases hrest : lastVal rest k with
    | some w => simp
    | none =>
      by_cases hpk : p.1 = k
      · simp [hpk]
      · simp [hpk]

theorem jsGet_jsMapOfList (l : List (String × String)) (k : String) :
    jsGet (jsMapOfList l) k = lastVal l k := by
  rw [jsMapOfList, jsGet_foldl_jsSet]
  cases lastVal l k <;> simp [jsGet]

theorem nodup_keysOf_jsMapOfList (l : List (String × String)) :
    (keysOf (jsMapOfList l)).Nodup := by
  rw [jsMapOfList]
  have : ∀ m0 : JsMap, (keysOf m0).Nodup →
      (keysOf (l.foldl (fun m p => jsSet m p.1 p.2) m0)).Nodup := by
    induction l with
    | nil => intro m0 h; exact h
    | cons p rest ih =>
      intro m0 h
      exact ih _ (nodup_keysOf_jsSet _ _ _ h)
  exact this [] (by simp [keysOf])

theorem mem_keysOf_jsMapOfList (l : List (String × String)) (k : String) :
    k ∈ keysOf (jsMapOfList l) ↔ k ∈ l.map (fun p => p.1) := by
  constructor
  · intro h
    by_contra hc
    rw [← lastVal_eq_none_iff, ← jsGet_jsMapOfList, jsGet_eq_none_iff] at hc
    exact hc h
  · intro h
    by_contra hc
    rw [← jsGet_eq_none_iff, jsGet_jsMapOfList, lastVal_eq_none_iff] at hc
    exact hc h

theorem filter_length_mono_of_imp {l : List String} {p q : String → Bool}
    (h : ∀ x, p x = true → q x = true) : (l.filter p).length ≤ (l.filter q).length := by
  induction l with
  | nil => simp
  | cons a rest ih =>
    by_cases hp : p a = true
    · rw [List.filter_cons_of_pos hp, List.filter_cons_of_pos (h a hp)]
      simpa using ih
    · rw [List.filter_cons_of_neg (by simpa using hp)]
      by_cases hq : q a = true
      · rw [List.filter_cons_of_pos hq]
        exact ih.trans (Nat.le_succ _)
      · rw [List.filter_cons_of_neg (by simpa using hq)]
        exact ih

theorem length_jsSet_le (m : JsMap) (k v : String) :
    (jsSet m k v).length ≤ m.length + 1 := by
  induction m with
  | nil => simp [jsSet]
  | cons p rest ih =>
    by_cases hpk : p.1 = k
    · simp [jsSet, hpk]
    · simp only [jsSet, if_neg hpk, List.length_cons]
      omega

theorem length_jsMapOfList_le (l : List (String × String)) :
    (jsMapOfList l).length ≤ l.length := by
  rw [jsMapOfList]
  have : ∀ m0 : JsMap, (l.foldl (fun m p => jsSet m p.1 p.2) m0).length ≤ m0.length + l.length := by
    induction l with
    | nil => intro m0; simp
    | cons p rest ih =>
      intro m0
      simp only [List.foldl_cons, List.length_cons]
      calc (rest.foldl (fun m p => jsSet m p.1 p.2) (jsSet m0 p.1 p.2)).length
          ≤ (jsSet m0 p.1 p.2).length + rest.length := ih _
        _ ≤ (m0.length + 1) + rest.length := by
            exact Nat.add_le_add_right (length_jsSet_le _ _ _) _
        _ = m0.length + (rest.length + 1) := by omega
  calc (l.foldl (fun m p => jsSet m p.1 p.2) []).length ≤ [].length + l.length := this []
    _ = l.length := by simp

/-! ## `transit` walk lemmas -/

theorem transit_fuel_succ {dg : JsMap} {fuel : Nat} {s : String} {A : List String}
    {r : TransitRes} (h : transit dg fuel s A = some r) :
    transit dg (fuel + 1) s A = some r := by
  induction fuel generalizing s A with
  | zero => cases h
  | succ n ih =>
    rw [transit] at h
    rw [transit]
    cases hg : jsGet dg s with
    | none => rw [hg] at h; exact h
    | some next =>
      rw [hg] at h
      simp only at h ⊢
      by_cases hemp : next = ""
      · rw [if_pos hemp] at h
        rw [if_pos hemp]
        exact h
      · rw [if_neg hemp] at h
        rw [if_neg hemp]
        by_cases hmem : next ∈ A ++ [s]
        · rw [if_pos hmem] at h
          rw [if_pos hmem]
          exact h
        · rw [if_neg hmem] at h
          rw [if_neg hmem]
          exact ih h

theorem transit_fuel_mono {dg : JsMap} {fuel fuel2 : Nat} {s : String} {A : List String}
    {r : TransitRes} (hle : fuel ≤ fuel2) (h : transit dg fuel s A = some r) :
    transit dg fuel2 s A = some r := by
  induction fuel2 with
  | zero =>
    have : fuel = 0 := Nat.le_zero.1 hle
    subst this
    exact h
  | succ n ih =>
    rcases Nat.lt_or_ge fuel (n + 1) with hlt | hge
    · exact transit_fuel_succ (ih (Nat.lt_succ_iff.1 hlt))
    · have : fuel = n + 1 := Nat.le_antisymm hle hge
      subst this
      exact h

theorem transit_acc_sub {dg : JsMap} {fuel : Nat} {s : String} {A fs : List String}
    {t : String} (h : transit dg fuel s A = some (.done fs t)) :
    ∀ x ∈ A, x ∈ fs := by
  induction fuel generalizing s A with
  | zero => cases h
  | succ n ih =>
    rw [transit] at h
    cases hg : jsGet dg s with
    | none =>
      rw [hg] at h
      simp only [Option.some.injEq, TransitRes.done.injEq] at h
      intro x hx
      rw [← h.1]
      exact hx
    | some next =>
      rw [hg] at h
      simp only at h
      by_cases hemp : next = ""
      · rw [if_pos hemp] at h
        simp only [Option.some.injEq, TransitRes.done.injEq] at h
        intro x hx
        rw [← h.1]
        exact hx
      · rw [if_neg hemp] at h
        by_cases hmem : next ∈ A ++ [s]
        · rw [if_pos hmem] at h
          cases h
        · rw [if_neg hmem] at h
          intro x hx
          exact ih h x (List.mem_append.2 (Or.inl hx))

theorem transit_mem_step {dg : JsMap} {fuel : Nat} {s : String} {A fs : List String}
    {t : String} (h : transit dg fuel s A = some (.done fs t)) :
    ∀ f ∈ fs, f ∈ A ∨ ∃ v, jsGet dg f = some v ∧ v ≠ "" := by
  induction fuel generalizing s A with
  | zero => cases h
  | succ n ih =>
    rw [transit] at h
    cases hg : jsGet dg s with
    | none =>
      rw [hg] at h
      simp only [Option.some.injEq, TransitRes.done.injEq] at h
      intro f hf
      rw [← h.1] at hf
      exact Or.inl hf
    | some next =>
      rw [hg] at h
      simp only at h
      by_cases hemp : next = ""
      · rw [if_pos hemp] at h
        simp only [Option.some.injEq, TransitRes.done.injEq] at h
        intro f hf
        rw [← h.1] at hf
        exact Or.inl hf
      · rw [if_neg hemp] at h
        by_cases hmem : next ∈ A ++ [s]
        · rw [if_pos hmem] at h
          cases h
        · rw [if_neg hmem] at h
          intro f hf
          rcases ih h f hf with h2 | h2
          · rcases List.mem_append.1 h2 with h3 | h3
            · exact Or.inl h3
            · right
              rw [List.mem_singleton.1 h3]
              exact ⟨next, hg, hemp⟩
          · exact Or.inr h2

theorem transit_target_terminal {dg : JsMap} {fuel : Nat} {s : String} {A fs : List String}
    {t : String} (h : transit dg fuel s A = some (.done fs t)) :
    jsGet dg t = none ∨ jsGet dg t = some "" := by
  induction fuel generalizing s A with
  | zero => cases h
  | succ n ih =>
    rw [transit] at h
    cases hg : jsGet dg s with
    | none =>
      rw [hg] at h
      simp only [Option.some.injEq, TransitRes.done.injEq] at h
      rw [← h.2]
      exact Or.inl hg
    | some next =>
      rw [hg] at h
      simp only at h
      by_cases hemp : next = ""
      · rw [if_pos hemp] at h
        simp only [Option.some.injEq, TransitRes.done.injEq] at h
        rw [← h.2]
        right
        rw [hg, hemp]
      · rw [if_neg hemp] at h
        by_cases hmem : next ∈ A ++ [s]
        · rw [if_pos hmem] at h
          cases h
        · rw [if_neg hmem] at h
          exact ih h

theorem transit_done_target_ne {dg : JsMap} {fuel : Nat} {s : String} {A fs : List String}
    {t : String} (h : transit dg fuel s A = some (.done fs t)) :
    (fs = A ∧ t = s) ∨ t ≠ "" := by
  induction fuel generalizing s A with
  | zero => cases h
  | succ n ih =>
    rw [transit] at h
    cases hg : jsGet dg s with
    | none =>
      rw [hg] at h
      simp only [Option.some.injEq, TransitRes.done.injEq] at h
      exact Or.inl ⟨h.1.symm, h.2.symm⟩
    | some next =>
      rw [hg] at h
      simp only at h
      by_cases hemp : next = ""
      · rw [if_pos hemp] at h
        simp only [Option.some.injEq, TransitRes.done.injEq] at h
        exact Or.inl ⟨h.1.symm, h.2.symm⟩
      · rw [if_neg hemp] at h
        by_cases hmem : next ∈ A ++ [s]
        · rw [if_pos hmem] at h
          cases h
        · rw [if_neg hmem] at h
          rcases ih h with ⟨_, ht⟩ | ht
          · exact Or.inr (ht ▸ hemp)
          · exact Or.inr ht

theorem transit_target_shape {dg : JsMap} {fuel : Nat} {s : String} {A fs : List String}
    {t : String} (h : transit dg fuel s A = some (.done fs t)) :
    (t = s ∧ fs = A) ∨ ∃ u, jsGet dg u = some t := by
  induction fuel generalizing s A with
  | zero => cases h
  | succ n ih =>
    rw [transit] at h
    cases hg : jsGet dg s with
    | none =>
      rw [hg] at h
      simp only [Option.some.injEq, TransitRes.done.injEq] at h
      exact Or.inl ⟨h.2.symm, h.1.symm⟩
    | some next =>
      rw [hg] at h
      simp only at h
      by_cases hemp : next = ""
      · rw [if_pos hemp] at h
        simp only [Option.some.injEq, TransitRes.done.injEq] at h
        exact Or.inl ⟨h.2.symm, h.1.symm⟩
      · rw [if_neg hemp] at h
        by_cases hmem : next ∈ A ++ [s]
        · rw [if_pos hmem] at h
          cases h
        · rw [if_neg hmem] at h
          rcases ih h with ⟨ht, _⟩ | h2
          · exact Or.inr ⟨s, ht ▸ hg⟩
          · exact Or.inr h2

theorem transit_weaken {dg : JsMap} {fuel : Nat} {s : String} {A fs : List String}
    {t : String} (h : transit dg fuel s A = some (.done fs t))
    {B : List String} (hBA : ∀ x ∈ B, x ∈ A) :
    ∃ fs2, transit dg fuel s B = some (.done fs2 t) := by
  induction fuel generalizing s A B with
  | zero => cases h
  | succ n ih =>
    rw [transit] at h
    rw [transit]
    cases hg : jsGet dg s with
    | none =>
      rw [hg] at h
      simp only [Option.some.injEq, TransitRes.done.injEq] at h
      exact ⟨B, by rw [← h.2]⟩
    | some next =>
      rw [hg] at h
      simp only at h ⊢
      by_cases hemp : next = ""
      · rw [if_pos hemp] at h
        rw [if_pos hemp]
        simp only [Option.some.injEq, TransitRes.done.injEq] at h
        exact ⟨B, by rw [← h.2]⟩
      · rw [if_neg hemp] at h
        rw [if_neg hemp]
        by_cases hmem : next ∈ A ++ [s]
        · rw [if_pos hmem] at h
          cases h
        · rw [if_neg hmem] at h
          have hBs : ∀ x ∈ B ++ [s], x ∈ A ++ [s] := by
            intro x hx
            rcases List.mem_append.1 hx with h2 | h2
            · exact List.mem_append.2 (Or.inl (hBA x h2))
            · exact List.mem_append.2 (Or.inr h2)
          have hmemB : next ∉ B ++ [s] := fun hc => hmem (hBs next hc)
          rw [if_neg hmemB]
          exact ih h hBs

theorem transit_suffix {dg : JsMap} {fuel : Nat} {s : String} {A fs : List String}
    {t f : String} (h : transit dg fuel s A = some (.done fs t))
    (hf : f ∈ fs) (hfA : f ∉ A) :
    ∃ fs2, transit dg fuel f [] = some (.done fs2 t) := by
  induction fuel generalizing s A with
  | zero => cases h
  | succ n ih =>
    rw [transit] at h
    cases hg : jsGet dg s with
    | none =>
      rw [hg] at h
      simp only [Option.some.injEq, TransitRes.done.injEq] at h
      rw [← h.1] at hf
      exact absurd hf hfA
    | some next =>
      rw [hg] at h
      simp only at h
      by_cases hemp : next = ""
      · rw [if_pos hemp] at h
        simp only [Option.some.injEq, TransitRes.done.injEq] at h
        rw [← h.1] at hf
        exact absurd hf hfA
      · rw [if_neg hemp] at h
        by_cases hmem : next ∈ A ++ [s]
        · rw [if_pos hmem] at h
          cases h
        · rw [if_neg hmem] at h
          by_cases hfs : f = s
          · subst hfs
            have horig : transit dg (n + 1) f A = some (.done fs t) := by
              rw [transit, hg]
              simp only
              rw [if_neg hemp, if_neg hmem]
              exact h
            exact transit_weaken horig (by intro x hx; cases hx)
          · have hfA2 : f ∉ A ++ [s] := by
              intro hc
              rcases List.mem_append.1 hc with h2 | h2
              · exact hfA h2
              · exact hfs (List.mem_singleton.1 h2)
            rcases ih h hfA2 with ⟨fs2, h2⟩
            exact ⟨fs2, transit_fuel_succ h2⟩

theorem length_filter_ne_lt {l : List String} {s : String} (hs : s ∈ l) :
    (l.filter (fun x => decide (x ≠ s))).length < l.length := by
  induction l with
  | nil => cases hs
  | cons a rest ih =>
    by_cases has : a = s
    · rw [List.filter_cons_of_neg (by simp [has])]
      exact Nat.lt_succ_of_le (List.length_filter_le _ _)
    · rw [List.filter_cons_of_pos (by simp [has])]
      have : s ∈ rest := by
        rcases List.mem_cons.1 hs with h | h
        · exact absurd h.symm has
        · exact h
      simpa using ih this

theorem transit_isSome {dg : JsMap} {fuel : Nat} {A : List String} {s : String}
    (hsA : s ∉ A)
    (hfuel : ((keysOf dg).filter (fun x => decide (x ∉ A))).length < fuel) :
    transit dg fuel s A ≠ none := by
  induction fuel generalizing s A with
  | zero => cases hfuel
  | succ n ih =>
    rw [transit]
    cases hg : jsGet dg s with
    | none => simp
    | some next =>
      simp only
      by_cases hemp : next = ""
      · rw [if_pos hemp]
        simp
      · rw [if_neg hemp]
        by_cases hmem : next ∈ A ++ [s]
        · rw [if_pos hmem]
          simp
        · rw [if_neg hmem]
          apply ih
          · intro hc
            exact hmem hc
          · have hsK : s ∈ keysOf dg := mem_keysOf_of_jsGet hg
            have hsF : s ∈ (keysOf dg).filter (fun x => decide (x ∉ A)) := by
              rw [List.mem_filter]
              exact ⟨hsK, by simpa using hsA⟩
            have hdrop : ∀ x : String, (decide (x ∉ A ++ [s]) : Bool) = true →
                (decide (x ≠ s) && decide (x ∉ A)) = true := by
              intro x hx
              have hx2 : x ∉ A ++ [s] := of_decide_eq_true hx
              simp only [Bool.and_eq_true, decide_eq_true_eq]
              exact ⟨fun hc => hx2 (List.mem_append.2 (Or.inr (by simp [hc]))),
                fun hc => hx2 (List.mem_append.2 (Or.inl hc))⟩
            have hlt : ((keysOf dg).filter (fun x => decide (x ∉ A ++ [s]))).length <
                ((keysOf dg).filter (fun y => decide (y ∉ A))).length := by
              calc ((keysOf dg).filter (fun x => decide (x ∉ A ++ [s]))).length
                  ≤ ((keysOf dg).filter (fun x => decide (x ≠ s) && decide (x ∉ A))).length :=
                    filter_length_mono_of_imp hdrop
                _ = (((keysOf dg).filter (fun y => decide (y ∉ A))).filter
                      (fun y => decide (y ≠ s))).length := by
                    rw [List.filter_filter]
                _ < ((keysOf dg).filter (fun y => decide (y ∉ A))).length :=
                    length_filter_ne_lt hsF
            exact Nat.lt_of_lt_of_le hlt (Nat.lt_succ_iff.1 hfuel)

theorem transit_fuelOf_isSome (pairs : List (String × String)) (s : String) :
    transit (dgOf pairs) (fuelOf pairs) s [] ≠ none := by
  apply transit_isSome (by intro hc; cases hc)
  calc ((keysOf (dgOf pairs)).filter (fun x => decide (x ∉ ([] : List String)))).length
      ≤ (keysOf (dgOf pairs)).length := List.length_filter_le _ _
    _ = (dgOf pairs).length := by simp [keysOf]
    _ ≤ (lowerCasePairsOf pairs).length := length_jsMapOfList_le _
    _ = pairs.length := by simp [lowerCasePairsOf]
    _ < fuelOf pairs := Nat.lt_succ_self _

theorem transit_self_mem {dg : JsMap} {fuel : Nat} {f t v : String} {fs : List String}
    (h : transit dg fuel f [] = some (.done fs t)) (hg : jsGet dg f = some v)
    (hv : v ≠ "") : f ∈ fs := by
  cases fuel with
  | zero => cases h
  | succ n =>
    rw [transit, hg] at h
    simp only at h
    rw [if_neg hv] at h
    by_cases hmem : v ∈ ([] : List String) ++ [f]
    · rw [if_pos hmem] at h
      cases h
    · rw [if_neg hmem] at h
      exact transit_acc_sub h f (by simp)

/-! ## Lowercasing lemmas -/

theorem toNat_ofNat_of_valid {n : Nat} (hv : n.isValidChar) : (Char.ofNat n).toNat = n := by
  rw [Char.ofNat, dif_pos hv]
  rfl

theorem toLower_of_range {c : Char} (h : c.toNat ≥ 65 ∧ c.toNat ≤ 90) :
    Char.toLower c = Char.ofNat (c.toNat + 32) := by
  unfold Char.toLower
  exact if_pos h

theorem toLower_eq_self {c : Char} (h : ¬(c.toNat ≥ 65 ∧ c.toNat ≤ 90)) :
    Char.toLower c = c := by
  unfold Char.toLower
  exact if_neg h

theorem toLower_toLower (c : Char) : Char.toLower (Char.toLower c) = Char.toLower c := by
  by_cases h : c.toNat ≥ 65 ∧ c.toNat ≤ 90
  · rw [toLower_of_range h]
    have hv : (c.toNat + 32).isValidChar := Or.inl (by omega)
    have htn : (Char.ofNat (c.toNat + 32)).toNat = c.toNat + 32 := toNat_ofNat_of_valid hv
    apply toLower_eq_self
    rw [htn]
    omega
  · rw [toLower_eq_self h, toLower_eq_self h]

theorem toLowerCase_idem (s : String) : toLowerCase (toLowerCase s) = toLowerCase s := by
  rw [toLowerCase, toLowerCase]
  simp only [List.map_map]
  congr 1
  apply List.map_congr_left
  intro c _
  exact toLower_toLower c

theorem data_toLowerCase (s : String) : (toLowerCase s).data = s.data.map Char.toLower := rfl

/-! ## Casing-map lemmas -/

theorem mem_jsSet {m : JsMap} {k v : String} {q : String × String}
    (h : q ∈ jsSet m k v) : q ∈ m ∨ q = (k, v) := by
  induction m with
  | nil =>
    simp only [jsSet, List.mem_singleton] at h
    exact Or.inr h
  | cons p rest ih =>
    by_cases hpk : p.1 = k
    · rw [jsSet, if_pos hpk] at h
      rcases List.mem_cons.1 h with h2 | h2
      · exact Or.inr h2
      · exact Or.inl (List.mem_cons_of_mem _ h2)
    · rw [jsSet, if_neg hpk] at h
      rcases List.mem_cons.1 h with h2 | h2
      · exact Or.inl (h2 ▸ List.mem_cons_self _ _)
      · rcases ih h2 with h3 | h3
        · exact Or.inl (List.mem_cons_of_mem _ h3)
        · exact Or.inr h3

theorem mem_foldl_jsSet {q : String × String} :
    ∀ (l : List (String × String)) (m0 : JsMap),
      q ∈ l.foldl (fun m p => jsSet m p.1 p.2) m0 → q ∈ m0 ∨ q ∈ l := by
  intro l
  induction l with
  | nil =>
    intro m0 h0
    exact Or.inl h0
  | cons p rest ih =>
    intro m0 h0
    rcases ih (jsSet m0 p.1 p.2) h0 with h2 | h2
    · rcases mem_jsSet h2 with h3 | h3
      · exact Or.inl h3
      · right
        have hq : q = p := by
          rw [h3]
        rw [hq]
        exact List.mem_cons_self p rest
    · exact Or.inr (List.mem_cons_of_mem _ h2)

theorem mem_of_mem_jsMapOfList {l : List (String × String)} {q : String × String}
    (h : q ∈ jsMapOfList l) : q ∈ l := by
  rw [jsMapOfList] at h
  rcases mem_foldl_jsSet l [] h with h2 | h2
  · cases h2
  · exact h2

theorem casing_value_lower {pairs : List (String × String)} {k v : String}
    (h : jsGet (casingOf pairs) k = some v) : toLowerCase v = k := by
  rw [casingOf, jsGet_jsMapOfList] at h
  have hmem := lastVal_mem h
  rcases List.mem_append.1 hmem with h2 | h2
  · rcases List.mem_map.1 h2 with ⟨p, _, hp⟩
    have hk : toLowerCase p.1 = k := congrArg Prod.fst hp
    have hv : p.1 = v := congrArg Prod.snd hp
    rw [← hv, hk]
  · rcases List.mem_map.1 h2 with ⟨p, _, hp⟩
    have hk : toLowerCase p.2 = k := congrArg Prod.fst hp
    have hv : p.2 = v := congrArg Prod.snd hp
    rw [← hv, hk]

theorem toLowerCase_casingGet {pairs : List (String × String)} {k : String}
    (hk : ∃ x, k = toLowerCase x) :
    toLowerCase (casingGet (casingOf pairs) k) = k := by
  rw [casingGet]
  cases hget : jsGet (casingOf pairs) k with
  | none =>
    rcases hk with ⟨x, rfl⟩
    simp [toLowerCase_idem]
  | some v =>
    simpa using casing_value_lower hget

/-! ## `buildDag` lemmas -/

theorem buildDag_false_ok (dg : JsMap) (fuel : Nat) (srcs : List String) (dag : JsMap) :
    ∃ d, buildDag dg fuel false srcs dag = .ok d := by
  induction srcs generalizing dag with
  | nil => exact ⟨dag, rfl⟩
  | cons s rest ih =>
    rw [buildDag]
    cases transit dg fuel s [] with
    | none => exact ih dag
    | some r =>
      cases r with
      | cycle msg =>
        simp only [Bool.false_eq_true, if_false]
        exact ih dag
      | done froms target => exact ih _

theorem jsGet_foldl_jsSet_const (froms : List String) (t : String) (dag : JsMap) (k : String) :
    jsGet (froms.foldl (fun m f => jsSet m f t) dag) k =
      if k ∈ froms then some t else jsGet dag k := by
  induction froms generalizing dag with
  | nil => simp
  | cons f rest ih =>
    simp only [List.foldl_cons, ih, jsGet_jsSet]
    by_cases hk : k ∈ rest
    · simp [hk]
    · by_cases hfk : f = k
      · simp [hk, hfk]
      · have : k ∉ f :: rest := by
          intro hc
          rcases List.mem_cons.1 hc with h2 | h2
          · exact hfk h2.symm
          · exact hk h2
        simp [hk, hfk, this]

theorem nodup_keysOf_foldl_jsSet (froms : List String) (t : String) {dag : JsMap}
    (h : (keysOf dag).Nodup) : (keysOf (froms.foldl (fun m f => jsSet m f t) dag)).Nodup := by
  induction froms generalizing dag with
  | nil => exact h
  | cons f rest ih => exact ih (nodup_keysOf_jsSet _ _ _ h)

theorem dagInv_nil (dg : JsMap) (fuel : Nat) : DagInv dg fuel [] := by
  constructor
  · simp [keysOf]
  · intro f t h
    cases h

theorem dagInv_step {dg : JsMap} {fuel : Nat} {dag : JsMap} (hinv : DagInv dg fuel dag)
    {s target : String} {froms : List String}
    (hw : transit dg fuel s [] = some (.done froms target)) :
    DagInv dg fuel (froms.foldl (fun m f => jsSet m f target) dag) := by
  refine ⟨nodup_keysOf_foldl_jsSet _ _ hinv.1, ?_⟩
  intro f t hget
  rw [jsGet_foldl_jsSet_const] at hget
  by_cases hf : f ∈ froms
  · rw [if_pos hf] at hget
    have ht : t = target := by
      injection hget with h
      exact h.symm
    subst ht
    obtain ⟨v, hgv, hv⟩ : ∃ v, jsGet dg f = some v ∧ v ≠ "" := by
      rcases transit_mem_step hw f hf with h2 | h2
      · cases h2
      · exact h2
    rcases transit_suffix hw hf (by intro hc; cases hc) with ⟨fs2, h2⟩
    exact ⟨fs2, h2, transit_self_mem h2 hgv hv⟩
  · rw [if_neg hf] at hget
    exact hinv.2 f t hget

theorem buildDag_inv {dg : JsMap} {fuel : Nat} :
    ∀ srcs (dag d : JsMap), DagInv dg fuel dag →
      buildDag dg fuel false srcs dag = .ok d → DagInv dg fuel d := by
  intro srcs
  induction srcs with
  | nil =>
    intro dag d hinv h
    injection h with h2
    rw [← h2]
    exact hinv
  | cons s rest ih =>
    intro dag d hinv h
    rw [buildDag] at h
    cases hw : transit dg fuel s [] with
    | none =>
      rw [hw] at h
      exact ih dag d hinv h
    | some r =>
      rw [hw] at h
      cases r with
      | cycle msg =>
        simp only [Bool.false_eq_true, if_false] at h
        exact ih dag d hinv h
      | done froms target =>
        exact ih _ d (dagInv_step hinv hw) h

theorem buildDag_keys_mono {dg : JsMap} {fuel : Nat} :
    ∀ srcs (dag d : JsMap) (k : String), buildDag dg fuel false srcs dag = .ok d →
      k ∈ keysOf dag → k ∈ keysOf d := by
  intro srcs
  induction srcs with
  | nil =>
    intro dag d k h hk
    injection h with h2
    rw [← h2]
    exact hk
  | cons s rest ih =>
    intro dag d k h hk
    rw [buildDag] at h
    cases hw : transit dg fuel s [] with
    | none =>
      rw [hw] at h
      exact ih dag d k h hk
    | some r =>
      rw [hw] at h
      cases r with
      | cycle msg =>
        simp only [Bool.false_eq_true, if_false] at h
        exact ih dag d k h hk
      | done froms target =>
        apply ih _ d k h
        rw [mem_keysOf_iff_jsGet] at hk ⊢
        rw [jsGet_foldl_jsSet_const]
        intro hc
        by_cases hm : k ∈ froms
        · rw [if_pos hm] at hc
          cases hc
        · rw [if_neg hm] at hc
          exact hk hc

theorem buildDag_visits {dg : JsMap} {fuel : Nat} :
    ∀ srcs (dag d : JsMap) (f v : String), buildDag dg fuel false srcs dag = .ok d →
      f ∈ srcs → jsGet dg f = some v → v ≠ "" →
      (∀ fs t, transit dg fuel f [] = some (.done fs t) → f ∈ keysOf d) := by
  intro srcs
  induction srcs with
  | nil =>
    intro dag d f v h hf
    cases hf
  | cons s rest ih =>
    intro dag d f v h hf hg hv fs t hw
    rw [buildDag] at h
    by_cases hfs : f = s
    · subst hfs
      rw [hw] at h
      apply buildDag_keys_mono rest _ d f h
      rw [mem_keysOf_iff_jsGet]
      rw [jsGet_foldl_jsSet_const]
      rw [if_pos (transit_self_mem hw hg hv)]
      simp
    · rcases List.mem_cons.1 hf with h2 | h2
      · exact absurd h2 hfs
      · cases hw2 : transit dg fuel s [] with
        | none =>
          rw [hw2] at h
          exact ih dag d f v h h2 hg hv fs t hw
        | some r =>
          rw [hw2] at h
          cases r with
          | cycle msg =>
            simp only [Bool.false_eq_true, if_false] at h
            exact ih dag d f v h h2 hg hv fs t hw
          | done froms target =>
            exact ih _ d f v h h2 hg hv fs t hw

/-! ## `shortCuts` output characterization -/

theorem shortCuts_eq (pairs : List (String × String)) (throws : Bool) :
    shortCuts pairs throws =
      match buildDag (dgOf pairs) (fuelOf pairs) throws (srcsOf pairs) [] with
      | .error e => .error e
      | .ok dag => .ok (List.insertionSort sortTuples (dag.map (restorePair pairs))) := by
  cases hb : buildDag (dgOf pairs) (fuelOf pairs) throws (srcsOf pairs) [] with
  | error e => simp [shortCuts, hb, Bind.bind, Except.bind]
  | ok dag => simp [shortCuts, hb, Bind.bind, Except.bind, Pure.pure, Except.pure]

theorem shortCuts_false_elim {pairs r : List (String × String)}
    (h : shortCuts pairs false = .ok r) :
    ∃ dag, buildDag (dgOf pairs) (fuelOf pairs) false (srcsOf pairs) [] = .ok dag ∧
      DagInv (dgOf pairs) (fuelOf pairs) dag ∧
      r = List.insertionSort sortTuples (dag.map (restorePair pairs)) := by
  rw [shortCuts_eq] at h
  cases hb : buildDag (dgOf pairs) (fuelOf pairs) false (srcsOf pairs) [] with
  | error e =>
    rw [hb] at h
    cases h
  | ok dag =>
    rw [hb] at h
    injection h with h2
    exact ⟨dag, rfl, buildDag_inv _ [] dag (dagInv_nil _ _) hb, h2.symm⟩

theorem shortCuts_false_isOk (pairs : List (String × String)) :
    ∃ r, shortCuts pairs false = .ok r := by
  rw [shortCuts_eq]
  rcases buildDag_false_ok (dgOf pairs) (fuelOf pairs) (srcsOf pairs) [] with ⟨dag, hb⟩
  rw [hb]
  exact ⟨_, rfl⟩

theorem dg_key_lower {pairs : List (String × String)} {f : String}
    (h : jsGet (dgOf pairs) f ≠ none) : ∃ x, f = toLowerCase x := by
  have hmem : f ∈ keysOf (dgOf pairs) := (mem_keysOf_iff_jsGet _ _).2 h
  rw [dgOf, mem_keysOf_jsMapOfList] at hmem
  rcases List.mem_map.1 hmem with ⟨p, hp, hpf⟩
  rcases List.mem_map.1 hp with ⟨q, _, hq⟩
  refine ⟨q.1, ?_⟩
  rw [← hpf, ← hq]

theorem dg_value_lower {pairs : List (String × String)} {u t : String}
    (h : jsGet (dgOf pairs) u = some t) : ∃ x, t = toLowerCase x := by
  have hmem := mem_of_mem_jsMapOfList (mem_of_jsGet h)
  rcases List.mem_map.1 hmem with ⟨q, _, hq⟩
  refine ⟨q.2, ?_⟩
  have := congrArg Prod.snd hq
  exact this.symm

/-- Facts about every edge recorded in the transitive DAG: its source has a
nonempty outgoing `dg` edge, its target has none (or only the falsy
empty-string edge), the target is nonempty, and both are lowercased
strings. -/
theorem dagEntry_facts {pairs : List (String × String)} {dag : JsMap}
    (hinv : DagInv (dgOf pairs) (fuelOf pairs) dag) {f t : String}
    (hmem : (f, t) ∈ dag) :
    (∃ v, jsGet (dgOf pairs) f = some v ∧ v ≠ "") ∧
    (jsGet (dgOf pairs) t = none ∨ jsGet (dgOf pairs) t = some "") ∧
    t ≠ "" ∧ (∃ x, f = toLowerCase x) ∧ (∃ x, t = toLowerCase x) := by
  have hget := jsGet_of_mem_nodup hinv.1 hmem
  rcases hinv.2 f t hget with ⟨fs, hw, hffs⟩
  have hf : ∃ v, jsGet (dgOf pairs) f = some v ∧ v ≠ "" := by
    rcases transit_mem_step hw f hffs with h2 | h2
    · cases h2
    · exact h2
  have hfne : jsGet (dgOf pairs) f ≠ none := by
    rcases hf with ⟨v, hv, _⟩
    rw [hv]
    simp
  have ht := transit_target_terminal hw
  have htne : t ≠ "" := by
    rcases transit_done_target_ne hw with ⟨hfs, _⟩ | h2
    · rw [hfs] at hffs
      cases hffs
    · exact h2
  refine ⟨hf, ht, htne, dg_key_lower hfne, ?_⟩
  rcases transit_target_shape hw with ⟨_, hfs⟩ | ⟨u, hu⟩
  · rw [hfs] at hffs
    cases hffs
  · exact dg_value_lower hu

/-- Every walk that terminates leaves a direct edge from each visited node in
the final transitive DAG, with both endpoints restored to their casing-map
entries in the sorted output. -/
theorem visited_gets_edge {pairs r : List (String × String)}
    (hok : shortCuts pairs false = .ok r) {s : String} {fs : List String} {t : String}
    (hw : transit (dgOf pairs) (fuelOf pairs) s [] = some (.done fs t)) :
    ∀ f ∈ fs, ∃ p ∈ r, toLowerCase p.1 = f ∧ toLowerCase p.2 = t := by
  intro f hf
  rcases shortCuts_false_elim hok with ⟨dag, hbuild, hinv, hr⟩
  obtain ⟨v, hgv, hv⟩ : ∃ v, jsGet (dgOf pairs) f = some v ∧ v ≠ "" := by
    rcases transit_mem_step hw f hf with h2 | h2
    · cases h2
    · exact h2
  have hg : jsGet (dgOf pairs) f ≠ none := by
    rw [hgv]
    simp
  rcases transit_suffix hw hf (by intro hc; cases hc) with ⟨fs2, hw2⟩
  have hsrc : f ∈ srcsOf pairs := by
    have hmem : f ∈ keysOf (dgOf pairs) := (mem_keysOf_iff_jsGet _ _).2 hg
    rw [dgOf, mem_keysOf_jsMapOfList] at hmem
    exact hmem
  have hkey : f ∈ keysOf dag := buildDag_visits _ _ _ f v hbuild hsrc hgv hv fs2 t hw2
  obtain ⟨w, hw4⟩ : ∃ w, jsGet dag f = some w := by
    cases hg2 : jsGet dag f with
    | none => exact absurd hg2 ((mem_keysOf_iff_jsGet _ _).1 hkey)
    | some w => exact ⟨w, rfl⟩
  rcases hinv.2 f w hw4 with ⟨fs3, hw3, _⟩
  rw [hw2] at hw3
  injection hw3 with h4
  injection h4 with _ h5
  subst h5
  have hmem : (f, t) ∈ dag := mem_of_jsGet hw4
  rcases dagEntry_facts hinv hmem with ⟨_, _, _, hfl, htl⟩
  refine ⟨restorePair pairs (f, t), ?_, ?_, ?_⟩
  · rw [hr]
    exact ((List.perm_insertionSort sortTuples _).mem_iff).2
      (List.mem_map_of_mem (restorePair pairs) hmem)
  · exact toLowerCase_casingGet hfl
  · exact toLowerCase_casingGet htl

/-- Every element of the output is the casing-restoration of an edge of the
final transitive DAG. -/
theorem output_mem_elim {pairs r : List (String × String)} {dag : JsMap}
    (hr : r = List.insertionSort sortTuples (dag.map (restorePair pairs)))
    {p : String × String} (hp : p ∈ r) :
    ∃ f t, (f, t) ∈ dag ∧ p = restorePair pairs (f, t) := by
  rw [hr] at hp
  have hp2 := ((List.perm_insertionSort sortTuples _).mem_iff).1 hp
  rcases List.mem_map.1 hp2 with ⟨e, he, hpe⟩
  exact ⟨e.1, e.2, he, hpe.symm⟩

/-! ## Claim C1: flattening -/

/-- C1: flattening collapses multi-hop chains into direct edges: the pair set
A to B, B to C flattens to exactly A to C, B to C; and in general every node
visited on a walk that ends at a node with no outgoing edge receives a direct
output edge to that walk's ultimate target. -/
theorem c1_flattening :
    (shortCuts [("/en-US/docs/A", "/en-US/docs/B"), ("/en-US/docs/B", "/en-US/docs/C")] false =
      .ok [("/en-US/docs/A", "/en-US/docs/C"), ("/en-US/docs/B", "/en-US/docs/C")]) ∧
    (∀ (pairs r : List (String × String)) (s : String) (fs : List String) (t : String),
      shortCuts pairs false = .ok r →
      transit (dgOf pairs) (fuelOf pairs) s [] = some (.done fs t) →
      ∀ f ∈ fs, ∃ p ∈ r, toLowerCase p.1 = f ∧ toLowerCase p.2 = t) := by
  constructor
  · decide
  · intro pairs r s fs t hok hw
    exact visited_gets_edge hok hw

/-- Witness for C1 at the concrete scenario: the walk from A visits A and B
and ends at C, and B indeed receives a direct edge to C in the output. -/
theorem c1_flattening_witness :
    ∃ p ∈ [("/en-US/docs/A", "/en-US/docs/C"), ("/en-US/docs/B", "/en-US/docs/C")],
      toLowerCase p.1 = "/en-us/docs/b" ∧ toLowerCase p.2 = "/en-us/docs/c" :=
  c1_flattening.2
    [("/en-US/docs/A", "/en-US/docs/B"), ("/en-US/docs/B", "/en-US/docs/C")]
    [("/en-US/docs/A", "/en-US/docs/C"), ("/en-US/docs/B", "/en-US/docs/C")]
    "/en-us/docs/a" ["/en-us/docs/a", "/en-us/docs/b"] "/en-us/docs/c"
    (by decide) (by decide) "/en-us/docs/b" (by decide)

/-! ## Claim C3: acyclicity of the output -/

/-- C3: for every pair produced by `shortCuts`, the target never appears
(case-insensitively) as the source of any output pair, so the output graph
has maximum path length one and is acyclic. -/
theorem c3_acyclicity (pairs r : List (String × String))
    (hok : shortCuts pairs false = .ok r) :
    ∀ p ∈ r, ∀ q ∈ r, toLowerCase q.1 ≠ toLowerCase p.2 := by
  intro p hp q hq
  rcases shortCuts_false_elim hok with ⟨dag, _, hinv, hr⟩
  rcases output_mem_elim hr hp with ⟨f, t, hmem, hpe⟩
  rcases output_mem_elim hr hq with ⟨f2, t2, hmem2, hqe⟩
  rcases dagEntry_facts hinv hmem with ⟨_, ht, _, _, htl⟩
  rcases dagEntry_facts hinv hmem2 with ⟨hf2, _, _, hf2l, _⟩
  have h1 : toLowerCase p.2 = t := by
    rw [hpe]
    exact toLowerCase_casingGet htl
  have h2 : toLowerCase q.1 = f2 := by
    rw [hqe]
    exact toLowerCase_casingGet hf2l
  rw [h1, h2]
  intro hc
  rw [hc] at hf2
  rcases hf2 with ⟨v, hve, hvne⟩
  rcases ht with ht | ht
  · rw [ht] at hve
    cases hve
  · rw [ht] at hve
    injection hve with hve2
    exact hvne hve2.symm

/-- Witness for C3 at the concrete scenario A. -/
theorem c3_acyclicity_witness :
    toLowerCase ("/en-US/docs/B", "/en-US/docs/C").1 ≠
      toLowerCase ("/en-US/docs/A", "/en-US/docs/C").2 :=
  c3_acyclicity
    [("/en-US/docs/A", "/en-US/docs/B"), ("/en-US/docs/B", "/en-US/docs/C")]
    [("/en-US/docs/A", "/en-US/docs/C"), ("/en-US/docs/B", "/en-US/docs/C")]
    (by decide)
    ("/en-US/docs/A", "/en-US/docs/C") (by decide)
    ("/en-US/docs/B", "/en-US/docs/C") (by decide)

/-! ## Claim C4: cycle handling -/

/-- C4 counterexample: on X to A, A to B, B to A, the node x is on no cycle
(following edges from x never returns to x within the graph size) while a is
(two steps return to a), yet the output withholds the edge for x too: the
claim that edges are withheld only for nodes on the detected cycle is false. -/
theorem c4_cycle_counterexample :
    shortCuts [("/en-US/docs/X", "/en-US/docs/A"), ("/en-US/docs/A", "/en-US/docs/B"),
        ("/en-US/docs/B", "/en-US/docs/A")] false = .ok [] ∧
    followEdges (dgOf [("/en-US/docs/X", "/en-US/docs/A"), ("/en-US/docs/A", "/en-US/docs/B"),
        ("/en-US/docs/B", "/en-US/docs/A")]) 1 "/en-us/docs/x" ≠ "/en-us/docs/x" ∧
    followEdges (dgOf [("/en-US/docs/X", "/en-US/docs/A"), ("/en-US/docs/A", "/en-US/docs/B"),
        ("/en-US/docs/B", "/en-US/docs/A")]) 2 "/en-us/docs/x" ≠ "/en-us/docs/x" ∧
    followEdges (dgOf [("/en-US/docs/X", "/en-US/docs/A"), ("/en-US/docs/A", "/en-US/docs/B"),
        ("/en-US/docs/B", "/en-US/docs/A")]) 3 "/en-us/docs/x" ≠ "/en-us/docs/x" ∧
    followEdges (dgOf [("/en-US/docs/X", "/en-US/docs/A"), ("/en-US/docs/A", "/en-US/docs/B"),
        ("/en-US/docs/B", "/en-US/docs/A")]) 2 "/en-us/docs/a" = "/en-us/docs/a" := by
  refine ⟨by decide, by decide, by decide, by decide, by decide⟩

/-- C4 amended: on A to B, B to A the cycle is detected and both entries are
dropped; with strict cycle-checking `shortCuts` raises instead; and in
general every source whose recorded target is nonempty either receives an
output edge or its own walk detects a cycle — when it does, every node
visited in that walk (not only the nodes on the cycle itself) contributes no
edge from that walk.  A source whose recorded target is the empty string
falls in neither case: JS `if (next)` treats the falsy empty-string edge
like a missing one, the walk ends at the source itself having visited
nothing, and no edge is recorded (third conjunct). -/
theorem c4_cycle_amended :
    (shortCuts [("/en-US/docs/A", "/en-US/docs/B"), ("/en-US/docs/B", "/en-US/docs/A")] false =
      .ok []) ∧
    (∃ msg, shortCuts [("/en-US/docs/A", "/en-US/docs/B"), ("/en-US/docs/B", "/en-US/docs/A")]
      true = .error msg) ∧
    (shortCuts [("/en-US/docs/A", "")] false = .ok []) ∧
    (∀ (pairs r : List (String × String)) (f v : String),
      shortCuts pairs false = .ok r →
      jsGet (dgOf pairs) f = some v → v ≠ "" →
      (∃ p ∈ r, toLowerCase p.1 = f) ∨
      (∃ msg, transit (dgOf pairs) (fuelOf pairs) f [] = some (.cycle msg))) := by
  refine ⟨by decide, ⟨_, rfl⟩, by decide, ?_⟩
  intro pairs r f v hok hg hv
  cases hw : transit (dgOf pairs) (fuelOf pairs) f [] with
  | none => exact absurd hw (transit_fuelOf_isSome pairs f)
  | some res =>
    cases res with
    | cycle msg => exact Or.inr ⟨msg, rfl⟩
    | done fs t =>
      left
      have hffs : f ∈ fs := transit_self_mem hw hg hv
      rcases visited_gets_edge hok hw f hffs with ⟨p, hp, hp1, _⟩
      exact ⟨p, hp, hp1⟩

/-- Witness for C4 amended: on the cyclic scenario, the source a (whose
recorded target b is nonempty) falls in the cycle branch of the
disjunction. -/
theorem c4_cycle_amended_witness :
    (∃ p ∈ ([] : List (String × String)), toLowerCase p.1 = "/en-us/docs/a") ∨
    (∃ msg, transit
      (dgOf [("/en-US/docs/A", "/en-US/docs/B"), ("/en-US/docs/B", "/en-US/docs/A")])
      (fuelOf [("/en-US/docs/A", "/en-US/docs/B"), ("/en-US/docs/B", "/en-US/docs/A")])
      "/en-us/docs/a" [] = some (.cycle msg)) :=
  c4_cycle_amended.2.2.2
    [("/en-US/docs/A", "/en-US/docs/B"), ("/en-US/docs/B", "/en-US/docs/A")]
    [] "/en-us/docs/a" "/en-us/docs/b" (by decide) (by decide) (by decide)

/-! ## Claim C6: duplicated sources are silently overwritten -/

/-- C6 counterexample: two pairs sharing the lowercased source are not
rejected — even in throwing mode `shortCuts` succeeds, and the later entry
has silently replaced the earlier one (the edge to B is gone). -/
theorem c6_dup_source_counterexample :
    shortCuts [("/en-US/docs/A", "/en-US/docs/B"), ("/en-US/docs/a", "/en-US/docs/C")] true =
      .ok [("/en-US/docs/a", "/en-US/docs/C")] := by
  decide

/-- C6 amended: no invariant check rejects a duplicated source inside
`shortCuts`: it never fails when `throws` is false, and on a duplicated
lowercased source the later pair silently wins. -/
theorem c6_dup_source_amended :
    (∀ pairs, ∃ r, shortCuts pairs false = .ok r) ∧
    shortCuts [("/en-US/docs/A", "/en-US/docs/B"), ("/en-US/docs/a", "/en-US/docs/C")] false =
      .ok [("/en-US/docs/a", "/en-US/docs/C")] :=
  ⟨shortCuts_false_isOk, by decide⟩

/-- Witness for C6 amended at a concrete input. -/
theorem c6_dup_source_amended_witness :
    ∃ r, shortCuts [("/en-US/docs/A", "/en-US/docs/B"), ("/en-US/docs/a", "/en-US/docs/C")]
      false = .ok r :=
  c6_dup_source_amended.1 [("/en-US/docs/A", "/en-US/docs/B"), ("/en-US/docs/a", "/en-US/docs/C")]

/-! ## Claim C7: the casing map -/

/-- C7 counterexample: for the key a the first-seen casing is the uppercase A
of the first pair's source, but the casing map built by `shortCuts` holds the
later lowercase occurrence from the to role, and the output edge for that
source is restored to the lowercase form, not the first-seen one. -/
theorem c7_casing_counterexample :
    firstSeenCasing [("/en-US/docs/A", "/en-US/docs/B"), ("/en-US/docs/X", "/en-US/docs/a")]
      "/en-us/docs/a" = some "/en-US/docs/A" ∧
    jsGet (casingOf [("/en-US/docs/A", "/en-US/docs/B"), ("/en-US/docs/X", "/en-US/docs/a")])
      "/en-us/docs/a" = some "/en-US/docs/a" ∧
    ("/en-US/docs/a" : String) ≠ "/en-US/docs/A" ∧
    shortCuts [("/en-US/docs/A", "/en-US/docs/B"), ("/en-US/docs/X", "/en-US/docs/a")] false =
      .ok [("/en-US/docs/X", "/en-US/docs/B"), ("/en-US/docs/a", "/en-US/docs/B")] := by
  refine ⟨by decide, by decide, by decide, by decide⟩

/-- C7 amended: the casing map maps each lowercased URL to the last-seen
original casing, all to-role occurrences taking precedence over from-role
occurrences; both endpoints of every produced edge are restored via that map
(concretely visible on the counterexample input). -/
theorem c7_casing_amended :
    (∀ (pairs : List (String × String)) (k : String),
      jsGet (casingOf pairs) k = lastSeenToPrecedence pairs k) ∧
    shortCuts [("/en-US/docs/A", "/en-US/docs/B"), ("/en-US/docs/X", "/en-US/docs/a")] false =
      .ok [("/en-US/docs/X", "/en-US/docs/B"), ("/en-US/docs/a", "/en-US/docs/B")] := by
  constructor
  · intro pairs k
    rw [casingOf, jsGet_jsMapOfList, lastVal_append, lastSeenToPrecedence]
  · decide

/-- Witness for C7 amended at a concrete key. -/
theorem c7_casing_amended_witness :
    jsGet (casingOf [("/en-US/docs/A", "/en-US/docs/B"), ("/en-US/docs/X", "/en-US/docs/a")])
      "/en-us/docs/a" =
      lastSeenToPrecedence
        [("/en-US/docs/A", "/en-US/docs/B"), ("/en-US/docs/X", "/en-US/docs/a")]
        "/en-us/docs/a" :=
  c7_casing_amended.1 [("/en-US/docs/A", "/en-US/docs/B"), ("/en-US/docs/X", "/en-US/docs/a")]
    "/en-us/docs/a"

/-! ## Claim C2: idempotence of shortCuts -/

theorem jsSet_append {m : JsMap} {k : String} (v : String) (h : k ∉ keysOf m) :
    jsSet m k v = m ++ [(k, v)] := by
  induction m with
  | nil => rfl
  | cons p rest ih =>
    simp only [keysOf, List.map_cons, List.mem_cons] at h
    push_neg at h
    rw [jsSet, if_neg (fun hc => h.1 hc.symm)]
    rw [List.cons_append]
    congr 1
    exact ih h.2

theorem foldl_jsSet_of_fresh :
    ∀ (l : List (String × String)) (m0 : JsMap),
      (∀ k ∈ l.map (fun p => p.1), k ∉ keysOf m0) → (l.map (fun p => p.1)).Nodup →
      l.foldl (fun m p => jsSet m p.1 p.2) m0 = m0 ++ l := by
  intro l
  induction l with
  | nil =>
    intro m0 _ _
    simp
  | cons p rest ih =>
    intro m0 hfresh hnd
    simp only [List.map_cons, List.nodup_cons] at hnd
    have hp1 : p.1 ∉ keysOf m0 := hfresh p.1 (by simp)
    simp only [List.foldl_cons]
    rw [jsSet_append p.2 hp1]
    rw [ih (m0 ++ [(p.1, p.2)]) ?_ hnd.2]
    · simp
    · intro k hk
      have hk0 : k ∉ keysOf m0 := hfresh k (by simp [hk])
      have hkp : k ≠ p.1 := by
        intro hc
        exact hnd.1 (hc ▸ hk)
      simp only [keysOf, List.map_append, List.mem_append, List.map_cons]
      intro hc
      rcases hc with hc | hc
      · exact hk0 hc
      · simp only [List.map_nil, List.mem_singleton] at hc
        exact hkp hc

theorem jsMapOfList_of_nodup {l : List (String × String)}
    (h : (l.map (fun p => p.1)).Nodup) : jsMapOfList l = l := by
  rw [jsMapOfList, foldl_jsSet_of_fresh l [] (by intro k _; simp [keysOf]) h]
  simp

theorem lastVal_of_nodup {l : List (String × String)} {k v : String}
    (hnd : (l.map (fun p => p.1)).Nodup) (hmem : (k, v) ∈ l) : lastVal l k = some v := by
  rw [← jsGet_jsMapOfList, jsMapOfList_of_nodup hnd]
  exact jsGet_of_mem_nodup (by rw [keysOf]; exact hnd) hmem

theorem lastVal_const {l : List (String × String)} {k v : String}
    (hval : ∀ q ∈ l, q.1 = k → q.2 = v) (hmem : k ∈ l.map (fun p => p.1)) :
    lastVal l k = some v := by
  induction l with
  | nil => cases hmem
  | cons p rest ih =>
    rw [lastVal]
    by_cases hk : k ∈ rest.map (fun p => p.1)
    · rw [ih (fun q hq => hval q (List.mem_cons_of_mem _ hq)) hk]
    · have hlv : lastVal rest k = none := by
        rw [lastVal_eq_none_iff]
        exact hk
      rw [hlv]
      have hpk : p.1 = k := by
        simp only [List.map_cons, List.mem_cons] at hmem
        rcases hmem with h2 | h2
        · exact h2.symm
        · exact absurd h2 hk
      rw [if_pos hpk]
      rw [hval p (List.mem_cons_self _ _) hpk]

theorem transit_two_step {dg2 : JsMap} {fuel : Nat} {f t : String}
    (hget : jsGet dg2 f = some t) (hte : t ≠ "") (htf : t ≠ f)
    (ht : jsGet dg2 t = none) (hfuel : 2 ≤ fuel) :
    transit dg2 fuel f [] = some (.done [f] t) := by
  cases fuel with
  | zero => cases hfuel
  | succ n =>
    cases n with
    | zero => exact absurd hfuel (by omega)
    | succ m =>
      rw [transit, hget]
      simp only
      rw [if_neg hte]
      have hmem : t ∉ ([] : List String) ++ [f] := by
        simp [htf]
      rw [if_neg hmem]
      rw [transit, ht]
      simp

theorem buildDag_pointwise {dg2 : JsMap} {fuel : Nat} :
    ∀ (entries : List (String × String)) (dag0 : JsMap),
      (∀ p ∈ entries, transit dg2 fuel p.1 [] = some (.done [p.1] p.2)) →
      buildDag dg2 fuel false (entries.map (fun p => p.1)) dag0 =
        .ok (entries.foldl (fun m p => jsSet m p.1 p.2) dag0) := by
  intro entries
  induction entries with
  | nil =>
    intro dag0 _
    rfl
  | cons e rest ih =>
    intro dag0 hsteps
    simp only [List.map_cons, List.foldl_cons]
    rw [buildDag, hsteps e (List.mem_cons_self _ _)]
    simp only [List.foldl_cons, List.foldl_nil]
    exact ih _ (fun p hp => hsteps p (List.mem_cons_of_mem _ hp))

theorem sortTuples_sort_self {l : List (String × String)}
    (h : List.Sorted sortTuples l) : List.insertionSort sortTuples l = l :=
  List.eq_of_perm_of_sorted (List.perm_insertionSort sortTuples l)
    (List.sorted_insertionSort sortTuples l) h

theorem casingOf_spec (pairs : List (String × String)) (k : String) :
    jsGet (casingOf pairs) k =
      match lastVal (pairs.map (fun p => (toLowerCase p.2, p.2))) k with
      | some v => some v
      | none => lastVal (pairs.map (fun p => (toLowerCase p.1, p.1))) k := by
  rw [casingOf, jsGet_jsMapOfList, lastVal_append]

/-- C2: `shortCuts` is idempotent — applied to its own output it returns the
identical pair list: same pairs, same order, same casing. -/
theorem c2_idempotent (pairs r : List (String × String))
    (hok : shortCuts pairs false = .ok r) : shortCuts r false = .ok r := by
  rcases shortCuts_false_elim hok with ⟨dag, hbuild, hinv, hr⟩
  -- every output element is the casing restoration of a DAG edge
  have hout : ∀ q ∈ r, ∃ e, e ∈ dag ∧ q = restorePair pairs e := by
    intro q hq
    rcases output_mem_elim hr hq with ⟨f, t, hmem, hqe⟩
    exact ⟨(f, t), hmem, hqe⟩
  -- lowercasing a restored edge recovers the edge
  have hlow : ∀ e ∈ dag,
      (toLowerCase (restorePair pairs e).1, toLowerCase (restorePair pairs e).2) = e := by
    intro e he
    have he2 : (e.1, e.2) ∈ dag := by
      rw [Prod.mk.eta]
      exact he
    rcases dagEntry_facts hinv he2 with ⟨_, _, _, hfl, htl⟩
    rw [restorePair]
    simp only
    rw [toLowerCase_casingGet hfl, toLowerCase_casingGet htl]
  -- the lowercased output is a permutation of the DAG edge list
  have hpermr : r.Perm (dag.map (restorePair pairs)) := by
    rw [hr]
    exact List.perm_insertionSort sortTuples _
  have hL2 : lowerCasePairsOf r =
      r.map (fun q => (toLowerCase q.1, toLowerCase q.2)) := rfl
  have hpermL2 : (lowerCasePairsOf r).Perm dag := by
    rw [hL2]
    have h1 : (r.map (fun q => (toLowerCase q.1, toLowerCase q.2))).Perm
        ((dag.map (restorePair pairs)).map (fun q => (toLowerCase q.1, toLowerCase q.2))) :=
      hpermr.map _
    have h2 : (dag.map (restorePair pairs)).map
        (fun q => (toLowerCase q.1, toLowerCase q.2)) = dag := by
      rw [List.map_map]
      have := List.map_congr_left (l := dag)
        (f := fun e => (toLowerCase (restorePair pairs e).1, toLowerCase (restorePair pairs e).2))
        (g := id) hlow
      rw [Function.comp_def]
      rw [this]
      exact List.map_id dag
    rw [h2] at h1
    exact h1
  -- keys of the round-2 graph are exactly the DAG keys, without duplicates
  have hkeysperm : ((lowerCasePairsOf r).map (fun p => p.1)).Perm (keysOf dag) :=
    hpermL2.map _
  have hnd2 : ((lowerCasePairsOf r).map (fun p => p.1)).Nodup :=
    (hkeysperm.nodup_iff).2 hinv.1
  -- the round-2 graph is the edge list itself
  have hdg2 : dgOf r = lowerCasePairsOf r := by
    rw [dgOf]
    exact jsMapOfList_of_nodup hnd2
  -- facts about each round-2 edge
  have hentry : ∀ e ∈ lowerCasePairsOf r,
      jsGet (dgOf r) e.1 = some e.2 ∧ e.2 ≠ "" ∧ e.2 ≠ e.1 ∧
        jsGet (dgOf r) e.2 = none := by
    intro e he
    have hedag : e ∈ dag := hpermL2.subset he
    have hedag2 : (e.1, e.2) ∈ dag := by
      rw [Prod.mk.eta]
      exact hedag
    rcases dagEntry_facts hinv hedag2 with ⟨hf, ht, htne, _, _⟩
    refine ⟨?_, htne, ?_, ?_⟩
    · rw [hdg2]
      apply jsGet_of_mem_nodup
      · rw [keysOf]
        exact hnd2
      · rw [Prod.mk.eta]
        exact he
    · intro hc
      rcases hf with ⟨v, hve, hvne⟩
      rw [← hc] at hve
      rcases ht with ht | ht
      · rw [ht] at hve
        cases hve
      · rw [ht] at hve
        injection hve with hve2
        exact hvne hve2.symm
    · rw [hdg2, jsGet_eq_none_iff, keysOf]
      intro hc
      rcases List.mem_map.1 hc with ⟨e2, he2, he2e⟩
      have he2dag : (e2.1, e2.2) ∈ dag := by
        rw [Prod.mk.eta]
        exact hpermL2.subset he2
      rcases dagEntry_facts hinv he2dag with ⟨hf2, _, _, _, _⟩
      rcases hf2 with ⟨v2, hv2e, hv2ne⟩
      rw [he2e] at hv2e
      rcases ht with ht | ht
      · rw [ht] at hv2e
        cases hv2e
      · rw [ht] at hv2e
        injection hv2e with hv2e2
        exact hv2ne hv2e2.symm
  -- every round-2 walk is a single step
  have hwalk : ∀ e ∈ lowerCasePairsOf r,
      transit (dgOf r) (fuelOf r) e.1 [] = some (.done [e.1] e.2) := by
    intro e he
    rcases hentry e he with ⟨hget, hte, hne, htn⟩
    apply transit_two_step hget hte hne htn
    have : r.length ≠ 0 := by
      intro hc
      rw [List.length_eq_zero] at hc
      rw [hc] at he
      cases he
    rw [fuelOf]
    omega
  -- the round-2 buildDag reproduces the edge list
  have hbuild2 : buildDag (dgOf r) (fuelOf r) false (srcsOf r) [] =
      .ok (lowerCasePairsOf r) := by
    have hsrcs : srcsOf r = (lowerCasePairsOf r).map (fun p => p.1) := rfl
    rw [hsrcs, buildDag_pointwise (lowerCasePairsOf r) [] hwalk]
    have : (lowerCasePairsOf r).foldl (fun m p => jsSet m p.1 p.2) [] =
        jsMapOfList (lowerCasePairsOf r) := rfl
    rw [this, jsMapOfList_of_nodup hnd2]
  -- restoring casing in round 2 recovers each output element
  have hrestore : ∀ q ∈ r, restorePair r (toLowerCase q.1, toLowerCase q.2) = q := by
    intro q hq
    rcases hout q hq with ⟨e, hedag, hqe⟩
    have hql : (toLowerCase q.1, toLowerCase q.2) = e := by
      rw [hqe]
      exact hlow e hedag
    have he2 : (e.1, e.2) ∈ dag := by
      rw [Prod.mk.eta]
      exact hedag
    rcases dagEntry_facts hinv he2 with ⟨hfe, _, _, _, _⟩
    have hq1 : toLowerCase q.1 = e.1 := congrArg Prod.fst hql
    have hq2 : toLowerCase q.2 = e.2 := congrArg Prod.snd hql
    -- first component: only the from role carries the key e.1
    have htosn : lastVal (r.map (fun p => (toLowerCase p.2, p.2))) e.1 = none := by
      rw [lastVal_eq_none_iff]
      intro hc
      rw [List.map_map] at hc
      rcases List.mem_map.1 hc with ⟨q2, hq2r, hq2e⟩
      have hq2e2 : toLowerCase q2.2 = e.1 := hq2e
      rcases hout q2 hq2r with ⟨e2, he2dag, hq2re⟩
      have hq2low : toLowerCase q2.2 = e2.2 := by
        rw [hq2re]
        exact congrArg Prod.snd (hlow e2 he2dag)
      have he22 : (e2.1, e2.2) ∈ dag := by
        rw [Prod.mk.eta]
        exact he2dag
      rcases dagEntry_facts hinv he22 with ⟨_, hte2, _, _, _⟩
      rw [hq2low] at hq2e2
      rw [hq2e2] at hte2
      rcases hfe with ⟨v0, hv0e, hv0ne⟩
      rcases hte2 with hte2 | hte2
      · rw [hte2] at hv0e
        cases hv0e
      · rw [hte2] at hv0e
        injection hv0e with hv0e2
        exact hv0ne hv0e2.symm
    have hfroms : lastVal (r.map (fun p => (toLowerCase p.1, p.1))) e.1 = some q.1 := by
      apply lastVal_of_nodup
      · rw [List.map_map]
        have hsame : r.map
            ((fun p : String × String => p.1) ∘
              fun p : String × String => ((toLowerCase p.1, p.1) : String × String)) =
            (lowerCasePairsOf r).map (fun p => p.1) := by
          rw [hL2, List.map_map]
          rfl
        rw [hsame]
        exact hnd2
      · apply List.mem_map.2
        refine ⟨q, hq, ?_⟩
        rw [hq1]
    have hfst : casingGet (casingOf r) e.1 = q.1 := by
      rw [casingGet, casingOf_spec, htosn, hfroms]
      rfl
    -- second component: all to-role occurrences of the key carry the same value
    have htoss : lastVal (r.map (fun p => (toLowerCase p.2, p.2))) e.2 = some q.2 := by
      apply lastVal_const
      · intro p2 hp2 hp2k
        rcases List.mem_map.1 hp2 with ⟨q2, hq2r, hq2e⟩
        have hp21 : toLowerCase q2.2 = p2.1 := by
          rw [← hq2e]
        have hp22 : q2.2 = p2.2 := by
          rw [← hq2e]
        rcases hout q2 hq2r with ⟨e2, he2dag, hq2re⟩
        have hq2low : toLowerCase q2.2 = e2.2 := by
          rw [hq2re]
          exact congrArg Prod.snd (hlow e2 he2dag)
        have he2eq : e2.2 = e.2 := by
          rw [← hq2low, hp21, hp2k]
        have hq22 : q2.2 = casingGet (casingOf pairs) e.2 := by
          rw [hq2re]
          show casingGet (casingOf pairs) e2.2 = casingGet (casingOf pairs) e.2
          rw [he2eq]
        have hqq2 : q.2 = casingGet (casingOf pairs) e.2 := by
          rw [hqe]
          rfl
        rw [← hp22, hq22, hqq2]
      · rw [List.map_map]
        apply List.mem_map.2
        exact ⟨q, hq, hq2⟩
    have hsnd : casingGet (casingOf r) e.2 = q.2 := by
      rw [casingGet, casingOf_spec, htoss]
      rfl
    rw [hql]
    rw [show restorePair r e = (casingGet (casingOf r) e.1, casingGet (casingOf r) e.2)
      from rfl]
    rw [hfst, hsnd]
  -- assemble round 2
  rw [shortCuts_eq, hbuild2]
  show Except.ok (List.insertionSort sortTuples
    ((lowerCasePairsOf r).map (restorePair r))) = Except.ok r
  have hmap : (lowerCasePairsOf r).map (restorePair r) = r := by
    rw [hL2, List.map_map]
    have hcong := List.map_congr_left (l := r)
      (f := restorePair r ∘ fun q => (toLowerCase q.1, toLowerCase q.2))
      (g := id) (by
        intro q hq
        simp only [Function.comp_apply, id_eq]
        exact hrestore q hq)
    rw [hcong]
    exact List.map_id r
  rw [hmap]
  have hsorted : List.Sorted sortTuples r := by
    rw [hr]
    exact List.sorted_insertionSort sortTuples _
  rw [sortTuples_sort_self hsorted]

/-- Witness for C2 at the concrete scenario A output. -/
theorem c2_idempotent_witness :
    shortCuts [("/en-US/docs/A", "/en-US/docs/C"), ("/en-US/docs/B", "/en-US/docs/C")] false =
      .ok [("/en-US/docs/A", "/en-US/docs/C"), ("/en-US/docs/B", "/en-US/docs/C")] :=
  c2_idempotent
    [("/en-US/docs/A", "/en-US/docs/B"), ("/en-US/docs/B", "/en-US/docs/C")]
    [("/en-US/docs/A", "/en-US/docs/C"), ("/en-US/docs/B", "/en-US/docs/C")]
    (by decide)

theorem goodUrl_head {s : String} (h : GoodUrl s) :
    ∀ c, s.data.head? = some c → isJsWhitespace c = false := by
  intro c hc
  rcases h with ⟨_, _, _, hws⟩
  rw [noEdgeWs, Bool.and_eq_true] at hws
  have h1 := hws.1
  rw [hc] at h1
  simp only [Bool.not_eq_true'] at h1
  exact h1

theorem goodUrl_last {s : String} (h : GoodUrl s) :
    ∀ c, s.data.getLast? = some c → isJsWhitespace c = false := by
  intro c hc
  rcases h with ⟨_, _, _, hws⟩
  rw [noEdgeWs, Bool.and_eq_true] at hws
  have h1 := hws.2
  rw [hc] at h1
  simp only [Bool.not_eq_true'] at h1
  exact h1

theorem join_data_lines :
    ∀ (pairs : List (String × String)) (init : String),
      ((pairs.map (fun p => p.1 ++ "\t" ++ p.2 ++ "\n")).foldl (fun r s => r ++ s) init).data =
        init.data ++ pairs.foldr (fun p acc => lineData p ++ '\n' :: acc) [] := by
  intro pairs
  induction pairs with
  | nil =>
    intro init
    simp
  | cons p rest ih =>
    intro init
    simp only [List.map_cons, List.foldl_cons, List.foldr_cons]
    rw [ih]
    have h1 : ("\t" : String).data = ['\t'] := rfl
    have h2 : ("\n" : String).data = ['\n'] := rfl
    simp [String.data_append, h1, h2, lineData, List.append_assoc]

theorem data_saveContent (pairs : List (String × String)) :
    (saveContent pairs).data = "# FROM-URL\tTO-URL".data ++ '\n' ::
      pairs.foldr (fun p acc => lineData p ++ '\n' :: acc) [] := by
  rw [saveContent, String.data_append, String.join, join_data_lines]
  have h1 : ("# FROM-URL\tTO-URL\n" : String).data =
      "# FROM-URL\tTO-URL".data ++ ['\n'] := by decide
  have h2 : ("" : String).data = [] := rfl
  rw [h1, h2]
  simp [List.append_assoc]

theorem dropWhile_eq_self_of_head {p : Char → Bool} {l : List Char}
    (h : ∀ c, l.head? = some c → p c = false) : l.dropWhile p = l := by
  cases l with
  | nil => rfl
  | cons x xs =>
    rw [List.dropWhile_cons, if_neg]
    rw [h x rfl]
    simp

theorem trimL_eq_self {l : List Char}
    (hhead : ∀ c, l.head? = some c → isJsWhitespace c = false)
    (hlast : ∀ c, l.getLast? = some c → isJsWhitespace c = false) :
    ((l.dropWhile isJsWhitespace).reverse.dropWhile isJsWhitespace).reverse = l := by
  rw [dropWhile_eq_self_of_head hhead]
  rw [dropWhile_eq_self_of_head (by
    intro c hc
    rw [List.head?_reverse] at hc
    exact hlast c hc)]
  exact List.reverse_reverse l

theorem trimL_append_newline {l : List Char}
    (hhead : ∀ c, l.head? = some c → isJsWhitespace c = false)
    (hlast : ∀ c, l.getLast? = some c → isJsWhitespace c = false) :
    (((l ++ ['\n']).dropWhile isJsWhitespace).reverse.dropWhile isJsWhitespace).reverse = l := by
  cases l with
  | nil => rfl
  | cons x xs =>
    rw [dropWhile_eq_self_of_head (l := x :: xs ++ ['\n']) (by
      intro c hc
      simp only [List.cons_append, List.head?_cons, Option.some.injEq] at hc
      exact hc ▸ hhead x rfl)]
    rw [List.reverse_append]
    have hsimp : (['\n'] : List Char).reverse = ['\n'] := rfl
    rw [hsimp]
    rw [List.singleton_append, List.dropWhile_cons, if_pos (by decide)]
    rw [dropWhile_eq_self_of_head (by
      intro c hc
      rw [List.head?_reverse] at hc
      exact hlast c hc)]
    exact List.reverse_reverse _

theorem trimString_data (s : String) :
    (trimString s).data =
      ((s.data.dropWhile isJsWhitespace).reverse.dropWhile isJsWhitespace).reverse := rfl

theorem splitChar_not_mem {c : Char} {l : List Char} (h : c ∉ l) :
    splitChar c l = [l] := by
  induction l with
  | nil => rfl
  | cons x xs ih =>
    have hx : x ≠ c := by
      intro hc
      exact h (hc ▸ List.mem_cons_self _ _)
    rw [splitChar, if_neg hx]
    rw [ih (fun hc => h (List.mem_cons_of_mem _ hc))]

theorem splitChar_append_cons {c : Char} {a b : List Char} (h : c ∉ a) :
    splitChar c (a ++ c :: b) = a :: splitChar c b := by
  induction a with
  | nil =>
    rw [List.nil_append, splitChar, if_pos rfl]
  | cons x xs ih =>
    have hx : x ≠ c := by
      intro hc
      exact h (hc ▸ List.mem_cons_self _ _)
    rw [List.cons_append, splitChar, if_neg hx]
    rw [ih (fun hc => h (List.mem_cons_of_mem _ hc))]

theorem splitTabsGo_false_no_tab {l : List Char} (h : '\t' ∉ l) :
    splitTabsGo l false = [l] := by
  induction l with
  | nil => rfl
  | cons x xs ih =>
    have hx : ¬ x = '\t' := by
      intro hc
      exact h (hc ▸ List.mem_cons_self _ _)
    rw [splitTabsGo, if_neg hx]
    rw [ih (fun hc => h (List.mem_cons_of_mem _ hc))]

theorem splitTabsGo_true_no_tab {l : List Char} (h : '\t' ∉ l) :
    splitTabsGo l true = [l] := by
  cases l with
  | nil => rfl
  | cons x xs =>
    have hx : ¬ x = '\t' := by
      intro hc
      exact h (hc ▸ List.mem_cons_self _ _)
    rw [splitTabsGo, if_neg hx]
    rw [splitTabsGo_false_no_tab (fun hc => h (List.mem_cons_of_mem _ hc))]

theorem splitTabRuns_no_tab {l : List Char} (h : '\t' ∉ l) :
    splitTabRuns l = [l] := splitTabsGo_false_no_tab h

theorem splitTabRuns_single_sep {a b : List Char} (ha : '\t' ∉ a) (hb : '\t' ∉ b) :
    splitTabRuns (a ++ '\t' :: b) = [a, b] := by
  induction a with
  | nil =>
    rw [List.nil_append, splitTabRuns, splitTabsGo, if_pos rfl]
    rw [splitTabsGo_true_no_tab hb]
    simp
  | cons x xs ih =>
    have hx : ¬ x = '\t' := by
      intro hc
      exact ha (hc ▸ List.mem_cons_self _ _)
    rw [List.cons_append, splitTabRuns, splitTabsGo, if_neg hx]
    rw [show splitTabsGo (xs ++ '\t' :: b) false = splitTabRuns (xs ++ '\t' :: b) from rfl]
    rw [ih (fun hc => ha (List.mem_cons_of_mem _ hc))]

theorem lineData_no_newline {p : String × String} (h1 : GoodUrl p.1) (h2 : GoodUrl p.2) :
    '\n' ∉ lineData p := by
  rw [lineData]
  intro hc
  rcases List.mem_append.1 hc with hm | hm
  · exact h1.2.1 hm
  · rcases List.mem_cons.1 hm with hm2 | hm2
    · cases hm2
    · exact h2.2.1 hm2

theorem lineData_head {p : String × String} (h1 : GoodUrl p.1) :
    ∀ c, (lineData p).head? = some c → isJsWhitespace c = false := by
  intro c hc
  rw [lineData] at hc
  cases hd : p.1.data with
  | nil => exact absurd hd h1.1
  | cons x xs =>
    rw [hd, List.cons_append, List.head?_cons] at hc
    injection hc with hc2
    subst hc2
    apply goodUrl_head h1
    rw [hd]
    rfl

theorem getLast?_append_cons {a : Char} {x b0 : List Char} (hb : b0 ≠ []) :
    (x ++ a :: b0).getLast? = b0.getLast? := by
  rw [List.getLast?_append_of_ne_nil _ (by simp)]
  rw [List.getLast?_cons]
  cases hl : b0.getLast? with
  | none =>
    rw [List.getLast?_eq_none_iff] at hl
    exact absurd hl hb
  | some d => simp

theorem lineData_last {p : String × String} (h2 : GoodUrl p.2) :
    ∀ c, (lineData p).getLast? = some c → isJsWhitespace c = false := by
  intro c hc
  rw [lineData, getLast?_append_cons h2.1] at hc
  exact goodUrl_last h2 c hc

theorem trim_lineData {p : String × String} (h1 : GoodUrl p.1) (h2 : GoodUrl p.2) :
    trimString ⟨lineData p⟩ = ⟨lineData p⟩ := by
  have h := trimL_eq_self (lineData_head h1) (lineData_last h2)
  rw [trimString]
  exact congrArg String.mk h

theorem splitTabs_lineData {p : String × String} (h1 : GoodUrl p.1) (h2 : GoodUrl p.2) :
    splitTabs ⟨lineData p⟩ = [p.1, p.2] := by
  rw [splitTabs]
  show (splitTabRuns (lineData p)).map (fun l => (⟨l⟩ : String)) = [p.1, p.2]
  rw [lineData, splitTabRuns_single_sep h1.2.2.1 h2.2.2.1]
  simp only [List.map_cons, List.map_nil]

theorem body_split :
    ∀ pairs : List (String × String),
      (∀ p ∈ pairs, GoodUrl p.1 ∧ GoodUrl p.2) → pairs ≠ [] →
      ∃ body0 : List Char,
        pairs.foldr (fun p acc => lineData p ++ '\n' :: acc) [] = body0 ++ ['\n'] ∧
        body0 ≠ [] ∧
        (∀ c, body0.getLast? = some c → isJsWhitespace c = false) ∧
        splitChar '\n' body0 = pairs.map lineData := by
  intro pairs
  induction pairs with
  | nil =>
    intro _ hne
    exact absurd rfl hne
  | cons p rest ih =>
    intro hwf _
    have hp := hwf p (List.mem_cons_self _ _)
    by_cases hre : rest = []
    · subst hre
      refine ⟨lineData p, ?_, ?_, ?_, ?_⟩
      · simp
      · simp [lineData]
      · exact lineData_last hp.2
      · rw [splitChar_not_mem (lineData_no_newline hp.1 hp.2)]
        simp
    · rcases ih (fun x hx => hwf x (List.mem_cons_of_mem _ hx)) hre
        with ⟨b0, hb0, hb0ne, hb0last, hb0split⟩
      refine ⟨lineData p ++ '\n' :: b0, ?_, by simp, ?_, ?_⟩
      · rw [List.foldr_cons, hb0]
        simp [List.append_assoc]
      · intro c hc
        rw [getLast?_append_cons hb0ne] at hc
        exact hb0last c hc
      · rw [splitChar_append_cons (lineData_no_newline hp.1 hp.2)]
        rw [hb0split]
        simp

/-- Roundtrip (amended): for pairs whose URLs are nonempty, tab- and
newline-free, and without leading or trailing whitespace, parsing the saved
content returns exactly the pair rows. -/
theorem parse_saveContent (pairs : List (String × String))
    (hwf : ∀ p ∈ pairs, GoodUrl p.1 ∧ GoodUrl p.2) :
    parsePairs (saveContent pairs) = pairs.map (fun p => [p.1, p.2]) := by
  cases hps : pairs with
  | nil => decide
  | cons p0 rest0 =>
    rw [← hps]
    have hne : pairs ≠ [] := by
      rw [hps]
      simp
    rcases body_split pairs hwf hne with ⟨body0, hb, hbne, hblast, hbsplit⟩
    obtain ⟨H1, hH⟩ : ∃ H1, "# FROM-URL\tTO-URL".data = '#' :: H1 := ⟨_, rfl⟩
    -- trimming removes exactly the final newline
    have hdata : (saveContent pairs).data =
        ("# FROM-URL\tTO-URL".data ++ '\n' :: body0) ++ ['\n'] := by
      rw [data_saveContent, hb]
      simp [List.append_assoc]
    have htrim : (trimString (saveContent pairs)).data =
        "# FROM-URL\tTO-URL".data ++ '\n' :: body0 := by
      rw [trimString_data, hdata]
      apply trimL_append_newline
      · intro c hc
        rw [hH] at hc
        rw [List.cons_append, List.head?_cons] at hc
        injection hc with hc2
        subst hc2
        decide
      · intro c hc
        rw [getLast?_append_cons hbne] at hc
        exact hblast c hc
    -- splitting on newlines gives the header then the lines
    have hnotmem : ('\n' : Char) ∉ "# FROM-URL\tTO-URL".data := by decide
    rw [parsePairs, splitOnChar, htrim]
    rw [splitChar_append_cons hnotmem, hbsplit]
    simp only [List.map_cons, List.drop_succ_cons, List.drop_zero, List.map_map]
    apply List.map_congr_left
    intro q hq
    have hqwf := hwf q hq
    simp only [Function.comp_apply]
    rw [trim_lineData hqwf.1 hqwf.2, splitTabs_lineData hqwf.1 hqwf.2]

/-! ## Claim C8: removeConflictingOldRedirects -/

/-- C8 counterexample: merging the update X to Y into a store holding Z to X
does not remove Z to X — the removal rule compares old sources with update
targets, and Z is not the target Y. -/
theorem c8_conflict_counterexample :
    removeConflictingOldRedirects [("/en-US/docs/Z", "/en-US/docs/X")]
      [("/en-US/docs/X", "/en-US/docs/Y")] = [("/en-US/docs/Z", "/en-US/docs/X")] := by
  decide

/-- C8 amended: the function keeps exactly those old pairs whose lowercased
source differs from the lowercase of every update target, preserving order
(it is a filter); the pair removed when merging X to Y is an old pair whose
source is Y, such as Y to W. -/
theorem c8_conflict_amended :
    (∀ oldPairs updatePairs : List (String × String),
      removeConflictingOldRedirects oldPairs updatePairs =
        oldPairs.filter
          (fun p => decide (∀ u ∈ updatePairs, toLowerCase u.2 ≠ toLowerCase p.1))) ∧
    removeConflictingOldRedirects [("/en-US/docs/Y", "/en-US/docs/W")]
      [("/en-US/docs/X", "/en-US/docs/Y")] = [] := by
  constructor
  · intro oldPairs updatePairs
    rw [removeConflictingOldRedirects]
    by_cases hlen : oldPairs.length = 0
    · rw [if_pos hlen]
      rw [List.length_eq_zero] at hlen
      rw [hlen]
      rfl
    · rw [if_neg hlen]
      apply List.filter_congr
      intro p _
      by_cases hmem : toLowerCase p.1 ∈ updatePairs.map (fun u => toLowerCase u.2)
      · have h1 : (updatePairs.map (fun u => toLowerCase u.2)).contains (toLowerCase p.1) =
            true := List.elem_eq_true_of_mem hmem
        rw [h1]
        rcases List.mem_map.1 hmem with ⟨u, hu, hue⟩
        simp only [Bool.not_true]
        symm
        rw [decide_eq_false_iff_not]
        intro hall
        exact hall u hu hue
      · have h1 : (updatePairs.map (fun u => toLowerCase u.2)).contains (toLowerCase p.1) =
            false := by
          by_contra hc
          have : (updatePairs.map (fun u => toLowerCase u.2)).contains (toLowerCase p.1) =
              true := by
            cases hv : (updatePairs.map (fun u => toLowerCase u.2)).contains (toLowerCase p.1)
            · exact absurd hv hc
            · rfl
          exact hmem (List.mem_of_elem_eq_true this)
        rw [h1]
        simp only [Bool.not_false]
        symm
        rw [decide_eq_true_eq]
        intro u hu hue
        exact hmem (List.mem_map.2 ⟨u, hu, hue⟩)
  · decide

/-- Witness for C8 amended at a concrete input. -/
theorem c8_conflict_amended_witness :
    removeConflictingOldRedirects [("/en-US/docs/Z", "/en-US/docs/X")]
      [("/en-US/docs/X", "/en-US/docs/Y")] =
      [("/en-US/docs/Z", "/en-US/docs/X")].filter
        (fun p => decide (∀ u ∈ [(("/en-US/docs/X" : String), ("/en-US/docs/Y" : String))],
          toLowerCase u.2 ≠ toLowerCase p.1)) :=
  c8_conflict_amended.1 [("/en-US/docs/Z", "/en-US/docs/X")]
    [("/en-US/docs/X", "/en-US/docs/Y")]

/-! ## Except-bind helpers -/

theorem bind_ok_elim {ε α β : Type} {a : Except ε α} {f : α → Except ε β} {b : β}
    (h : (a >>= f) = .ok b) : ∃ x, a = .ok x ∧ f x = .ok b := by
  cases a with
  | error e =>
    exact absurd h (by simp [Bind.bind, Except.bind])
  | ok x =>
    refine ⟨x, rfl, ?_⟩
    simpa [Bind.bind, Except.bind] using h

theorem validatePairs_ok_elim {validLocales : List String}
    {locator parseURL : String → Option String} {resolveFn : String → String}
    {ps : List (String × String)} {ce : Bool}
    (h : validatePairs validLocales locator parseURL resolveFn ps ce = .ok ()) :
    ∀ p ∈ ps, validateFromURL validLocales locator resolveFn p.1 false = .ok () ∧
      validateToURL validLocales locator parseURL resolveFn p.2 false ce = .ok () := by
  induction ps with
  | nil =>
    intro p hp
    cases hp
  | cons q rest ih =>
    intro p hp
    rw [validatePairs] at h
    rcases bind_ok_elim h with ⟨x1, h1, h2⟩
    rcases bind_ok_elim h2 with ⟨x2, h3, h4⟩
    rcases List.mem_cons.1 hp with hp2 | hp2
    · subst hp2
      cases x1
      cases x2
      exact ⟨h1, h3⟩
    · exact ih h4 p hp2

theorem validateToURL_checkPath {validLocales : List String}
    {locator parseURL : String → Option String} {resolveFn : String → String} {url : String}
    (h : validateToURL validLocales locator parseURL resolveFn url false true = .ok ())
    (hs : startsWithChar url '/' = true) (hv : isVanityRedirectURL validLocales url = false)
    (he : includesSub url "://" = false) :
    resolveDocumentPath validLocales locator url ≠ none := by
  rw [validateToURL] at h
  rw [hv] at h
  simp only [Bool.false_eq_true, if_false] at h
  rw [he] at h
  simp only [Bool.false_eq_true, if_false] at h
  rw [hs] at h
  simp only [if_true] at h
  rcases bind_ok_elim h with ⟨x1, _, h2⟩
  rcases bind_ok_elim h2 with ⟨x2, _, h3⟩
  rcases bind_ok_elim h3 with ⟨x3, _, h4⟩
  intro hc
  rw [hc] at h4
  simp only [Bool.false_eq_true, if_false] at h4
  cases h4

/-! ## Claim C9: the save and load round trip -/

/-- C9 counterexample: the pair (A, "https://example.com ") passes both
validators and contains no tab or newline, but saving and re-parsing trims
the trailing space, so the round trip is not the identity.  The `parseURL`
instantiation `fun u => some "https:"` reflects the WHATWG constructor on
this URL: `new URL("https://example.com ")` succeeds (the parser strips
leading and trailing C0 controls and spaces itself) with protocol
`https:`. -/
theorem c9_roundtrip_counterexample :
    validateFromURL ["en-US"] (fun _ => none) id "/en-US/docs/A" false = .ok () ∧
    validateToURL ["en-US"] (fun _ => none) (fun _ => some "https:") id
      "https://example.com " false true = .ok () ∧
    ('\t' ∉ "/en-US/docs/A".data ∧ '\n' ∉ "/en-US/docs/A".data ∧
     '\t' ∉ "https://example.com ".data ∧ '\n' ∉ "https://example.com ".data) ∧
    parsePairs (saveContent [("/en-US/docs/A", "https://example.com ")]) =
      [["/en-US/docs/A", "https://example.com"]] ∧
    (["/en-US/docs/A", "https://example.com"] : List String) ≠
      ["/en-US/docs/A", "https://example.com "] := by
  refine ⟨by decide, by decide, by decide, by decide, by decide⟩

/-- C9 amended: for pairs whose URLs are nonempty, free of tabs and newlines,
and without leading or trailing whitespace, serializing with `save` and
re-parsing yields the same sequence of pairs, and relaxed
`loadPairsFromFile` returns exactly those pairs when they pass validation. -/
theorem c9_roundtrip_amended :
    (∀ pairs : List (String × String),
      (∀ p ∈ pairs, GoodUrl p.1 ∧ GoodUrl p.2) →
      parsePairs (saveContent pairs) = pairs.map (fun p => [p.1, p.2])) ∧
    (∀ (validLocales : List String) (locator parseURL : String → Option String)
       (resolveFn decodeP decodeU : String → String) (pairs : List (String × String)),
      (∀ p ∈ pairs, GoodUrl p.1 ∧ GoodUrl p.2) →
      validatePairs validLocales locator parseURL resolveFn pairs false = .ok () →
      loadPairsFromFile validLocales locator parseURL resolveFn decodeP decodeU
        (saveContent pairs) false = .ok pairs) := by
  refine ⟨parse_saveContent, ?_⟩
  intro validLocales locator parseURL resolveFn decodeP decodeU pairs hwf hval
  have hparsed : (parsePairs (saveContent pairs)).map linePair = pairs := by
    rw [parse_saveContent pairs hwf, List.map_map]
    have := List.map_congr_left (l := pairs)
      (f := linePair ∘ fun p : String × String => [p.1, p.2]) (g := id)
      (by
        intro q _
        rfl)
    rw [this]
    exact List.map_id pairs
  rw [loadPairsFromFile, hparsed]
  simp [Bind.bind, Except.bind, hval, Pure.pure, Except.pure]

/-- Witness for C9 amended at a concrete valid pair list (the `parseURL`
value `some "https:"` is what the WHATWG constructor reports for the
well-formed URL in the list). -/
theorem c9_roundtrip_amended_witness :
    loadPairsFromFile ["en-US"] (fun _ => none) (fun _ => some "https:") id id id
      (saveContent [("/en-US/docs/A", "https://example.com/x")]) false =
      .ok [("/en-US/docs/A", "https://example.com/x")] :=
  c9_roundtrip_amended.2 ["en-US"] (fun _ => none) (fun _ => some "https:") id id id
    [("/en-US/docs/A", "https://example.com/x")] (by decide) (by decide)

/-! ## Claim C10: the strict flag toggles target-existence checking -/

/-- C10: with strict loading every internal, non-vanity target must resolve
through the document locator (else loading fails); with relaxed loading the
target-existence check is skipped — `validateToURL` without `checkPath` never
consults the locator; concretely, the same content loads relaxed but fails
strictly when its internal target does not resolve. -/
theorem c10_strict_target_existence :
    (∀ (validLocales : List String) (locator parseURL : String → Option String)
       (resolveFn decodeP decodeU : String → String) (content : String)
       (ps : List (String × String)),
      loadPairsFromFile validLocales locator parseURL resolveFn decodeP decodeU
        content true = .ok ps →
      ∀ p ∈ ps, startsWithChar p.2 '/' = true →
        isVanityRedirectURL validLocales p.2 = false →
        includesSub p.2 "://" = false →
        resolveDocumentPath validLocales locator p.2 ≠ none) ∧
    (∀ (validLocales : List String) (locator locator2 parseURL : String → Option String)
       (resolveFn : String → String) (url : String),
      validateToURL validLocales locator parseURL resolveFn url false false =
        validateToURL validLocales locator2 parseURL resolveFn url false false) ∧
    ((∃ msg, loadPairsFromFile ["en-US"] (fun _ => none) (fun _ => none) id id id
        (saveContent [("/en-US/docs/A", "/en-US/docs/B")]) true = .error msg) ∧
      loadPairsFromFile ["en-US"] (fun _ => none) (fun _ => none) id id id
        (saveContent [("/en-US/docs/A", "/en-US/docs/B")]) false =
        .ok [("/en-US/docs/A", "/en-US/docs/B")]) := by
  refine ⟨?_, ?_, ⟨"To-URL has to resolve to a file (/en-US/docs/B)", by decide⟩, by decide⟩
  · intro validLocales locator parseURL resolveFn decodeP decodeU content ps h p hp hs hv he
    rw [loadPairsFromFile] at h
    rw [if_pos rfl] at h
    rcases bind_ok_elim h with ⟨x1, _, h2⟩
    rcases bind_ok_elim h2 with ⟨x2, _, h3⟩
    rcases bind_ok_elim h3 with ⟨x3, hval, h4⟩
    have hps : ps = (parsePairs content).map linePair := by
      simp only [Pure.pure, Except.pure] at h4
      injection h4 with h5
      exact h5.symm
    cases x3
    have hmem : p ∈ (parsePairs content).map linePair := hps ▸ hp
    have := (validatePairs_ok_elim hval p hmem).2
    exact validateToURL_checkPath this hs hv he
  · intro validLocales locator locator2 parseURL resolveFn url
    rfl

/-- Witness for C10 at a concrete strict load that succeeds: the target B
must indeed resolve through the locator. -/
theorem c10_strict_target_existence_witness :
    resolveDocumentPath ["en-US"]
      (fun u => if u = "/en-US/docs/B" then some "b.html" else none)
      "/en-US/docs/B" ≠ none :=
  c10_strict_target_existence.1 ["en-US"]
    (fun u => if u = "/en-US/docs/B" then some "b.html" else none) (fun _ => none) id id id
    (saveContent [("/en-US/docs/A", "/en-US/docs/B")])
    [("/en-US/docs/A", "/en-US/docs/B")] (by decide)
    ("/en-US/docs/A", "/en-US/docs/B") (by decide) (by decide) (by decide) (by decide)

/-! ## Claim C5: validateLocale never detects a flawed table -/

/-- C5 (code bug): `loadLocaleAndAdd` computes `changed` by JS reference
equality of two distinct arrays, so it is always false and `validateLocale`
never raises through it.  Concretely, the non-flattened stored table
A to B, B to C (with only C existing as a document) passes
`validateLocale(locale, strict)` silently although flattening would change
it — the claim says it must raise. -/
theorem c5_validateLocale_bug :
    (∀ (validLocales : List String) (locator parseURL : String → Option String)
       (resolveFn decodeP decodeU : String → String) (storedContent : Option String)
       (updatePairs : List (String × String)) (fix : Bool)
       (ps : List (String × String)) (ch : Bool),
      loadLocaleAndAdd validLocales locator parseURL resolveFn decodeP decodeU storedContent
        updatePairs fix = .ok (ps, ch) → ch = false) ∧
    validateLocale ["en-US"] (fun u => if u = "/en-US/docs/C" then some "c.html" else none)
      (fun _ => none) id id id
      (some (saveContent [("/en-US/docs/A", "/en-US/docs/B"),
        ("/en-US/docs/B", "/en-US/docs/C")])) true = .ok () ∧
    shortCuts [("/en-US/docs/A", "/en-US/docs/B"), ("/en-US/docs/B", "/en-US/docs/C")]
      false = .ok [("/en-US/docs/A", "/en-US/docs/C"), ("/en-US/docs/B", "/en-US/docs/C")] ∧
    ([("/en-US/docs/A", "/en-US/docs/C"), ("/en-US/docs/B", "/en-US/docs/C")] :
      List (String × String)) ≠
      [("/en-US/docs/A", "/en-US/docs/B"), ("/en-US/docs/B", "/en-US/docs/C")] := by
  refine ⟨?_, by decide, by decide, by decide⟩
  intro validLocales locator parseURL resolveFn decodeP decodeU storedContent
    updatePairs fix ps ch h
  rw [loadLocaleAndAdd] at h
  rcases bind_ok_elim h with ⟨x1, _, h2⟩
  rcases bind_ok_elim h2 with ⟨x2, _, h3⟩
  rcases bind_ok_elim h3 with ⟨x3, _, h4⟩
  cases storedContent
  all_goals
    rcases bind_ok_elim h4 with ⟨pairs0, _, h5⟩
    rcases bind_ok_elim h5 with ⟨simplified, _, h6⟩
    rcases bind_ok_elim h6 with ⟨x4, _, h7⟩
    simp only [Pure.pure, Except.pure] at h7
    injection h7 with h8
    have h9 := congrArg Prod.snd h8
    exact h9.symm

/-- Witness for C5 at the concrete flawed table. -/
theorem c5_validateLocale_bug_witness : (false : Bool) = false :=
  c5_validateLocale_bug.1 ["en-US"]
    (fun u => if u = "/en-US/docs/C" then some "c.html" else none) (fun _ => none) id id id
    (some (saveContent [("/en-US/docs/A", "/en-US/docs/B"),
      ("/en-US/docs/B", "/en-US/docs/C")])) [] true
    [("/en-US/docs/A", "/en-US/docs/C"), ("/en-US/docs/B", "/en-US/docs/C")] false
    (by decide)

end Redirects
